import Mathlib

set_option maxHeartbeats 1000000

/-
  Verification of the PageRank estimation engine (pagerank.py).

  The Python dictionaries are embedded as association lists kept in
  insertion order; Python float arithmetic is embedded as exact rational
  arithmetic over ℚ.  The sampler's two random primitives
  (random.randint and random.choices) are embedded by an oracle stream
  `rnd : Nat → Nat`: draw number i selects index `rnd i % size` of the
  population, which covers every outcome the Python primitives can produce.
  The unbounded `while` convergence loop of iterate_pagerank is embedded
  with an explicit fuel argument; `none` means the loop has not yet
  terminated within `fuel` iterations.
-/

namespace PageRank

/-- Pages are identified by their file name. -/
abbrev Page := String

/-- A corpus: dictionary from each page to the set of pages it links to. -/
abbrev Corpus := List (Page × List Page)

/-- A rank / probability dictionary. -/
abbrev Dist := List (Page × ℚ)

/-- The key list of a dictionary, in insertion order. -/
def keys (c : Corpus) : List Page := c.map Prod.fst

/-- Dictionary lookup with a default value: first entry whose key matches. -/
def dget {α : Type} : List (Page × α) → Page → α → α
  | [], _, d => d
  | e :: rest, k, d => if e.1 = k then e.2 else dget rest k d

/-- Sum of a dictionary's values, as in Python sum(d.values()). -/
def sumVals (m : Dist) : ℚ := (m.map Prod.snd).sum

/-- output[k] += x : add x to the value stored at key k (no-op when k is absent). -/
def addTo (m : Dist) (k : Page) (x : ℚ) : Dist :=
  m.map (fun e => if e.1 = k then (e.1, e.2 + x) else e)

/-- First block of transition_model: assign probability 0.00 to every corpus
    key and to every link target, in first-appearance order. -/
def initOutput (c : Corpus) : Dist :=
  c.foldl (fun out e =>
    let out1 := if e.1 ∈ out.map Prod.fst then out else out ++ [(e.1, 0)]
    e.2.foldl (fun o l => if l ∈ o.map Prod.fst then o else o ++ [(l, 0)]) out1) []

/-- transition_model(corpus, page, damping_factor): the next-page
    probability distribution of the random surfer standing on `page`. -/
def transition_model (c : Corpus) (page : Page) (d : ℚ) : Dist :=
  let output := initOutput c
  let links := dget c page []
  let output :=
    if links.length ≠ 0 then
      links.foldl (fun o l => addTo o l (d / (links.length : ℚ))) output
    else
      output.map (fun e => (e.1, e.2 + d / (output.length : ℚ)))
  output.map (fun e => (e.1, e.2 + (1 - d) / (output.length : ℚ)))

/-- The n-1 Markov-chain steps of sample_pagerank: from the current page,
    build its transition distribution and draw the next page from the
    distribution's keys by the random oracle. -/
def sampleLoop (c : Corpus) (d : ℚ) (rnd : Nat → Nat) : Nat → Nat → Page → List Page
  | 0, _, _ => []
  | k + 1, i, page =>
    let pop := (transition_model c page d).map Prod.fst
    let next := pop.getD (rnd i % pop.length) ""
    next :: sampleLoop c d rnd k (i + 1) next

/-- The full sample sequence of sample_pagerank: a uniformly random first
    page followed by n-1 Markov-chain steps. -/
def samplesOf (c : Corpus) (d : ℚ) (n : Int) (rnd : Nat → Nat) : List Page :=
  let page := (keys c).getD (rnd 0 % c.length) ""
  page :: sampleLoop c d rnd (n - 1).toNat 1 page

/-- sample_pagerank(corpus, damping_factor, n).  On an empty corpus
    random.randint(0, -1) raises; with n = 0 the final count/n division
    raises; otherwise each page's rank is its sample count divided by n. -/
def sample_pagerank (c : Corpus) (d : ℚ) (n : Int) (rnd : Nat → Nat) :
    Except String Dist :=
  if c.length = 0 then .error "ValueError: empty range for randrange()"
  else if n = 0 then .error "ZeroDivisionError: float division by zero"
  else
    .ok ((keys c).map (fun name =>
      (name, ((samplesOf c d n rnd).count name : ℚ) / (n : ℚ))))

/-- if key not in reverse[i]: reverse[i].add(key) — sets are embedded as
    duplicate-free lists, insertion at the end. -/
def addToSet (m : List (Page × List Page)) (i : Page) (key : Page) :
    List (Page × List Page) :=
  m.map (fun e => if e.1 = i then (e.1, if key ∈ e.2 then e.2 else e.2 ++ [key]) else e)

/-- The reverse index of iterate_pagerank: reverse[p] collects the pages
    that link to p, built by one pass over the corpus. -/
def reverseIndex (c : Corpus) : List (Page × List Page) :=
  let rev0 := (keys c).map (fun p => (p, ([] : List Page)))
  c.foldl (fun rev e => e.2.foldl (fun r i => addToSet r i e.1) rev) rev0

/-- pagerank_formula(corpus, page, d, ranks, reverse):
    (1-d)/N plus d times the sum over the pages linking to `page` of their
    rank divided by their out-degree. -/
def pagerank_formula (c : Corpus) (page : Page) (d : ℚ) (ranks : Dist)
    (reverse : List (Page × List Page)) : ℚ :=
  let rank := (1 - d) / (c.length : ℚ)
  let ind_rank := (dget reverse page []).foldl
    (fun acc link => acc + dget ranks link 0 / ((dget c link []).length : ℚ)) 0
  rank + d * ind_rank

/-- One pass "for page in ranks: new_rank[page] = pagerank_formula(...)". -/
def newRankRaw (c : Corpus) (d : ℚ) (rev : List (Page × List Page))
    (ranks : Dist) : Dist :=
  ranks.map (fun e => (e.1, pagerank_formula c e.1 d ranks rev))

/-- Normalisation step: dif = 1/sum(new_rank.values()); every value *= dif. -/
def normalize (nr : Dist) : Dist :=
  let dif := 1 / sumVals nr
  nr.map (fun e => (e.1, e.2 * dif))

/-- max_val = max over the pages of ranks of |new_rank[page] - ranks[page]|. -/
def maxDiff (ranks nr : Dist) : ℚ :=
  ranks.foldl (fun m e => max m |dget nr e.1 0 - e.2|) 0

/-- One body of the while loop: fresh ranks, then normalisation. -/
def stepRanks (c : Corpus) (d : ℚ) (rev : List (Page × List Page))
    (ranks : Dist) : Dist :=
  normalize (newRankRaw c d rev ranks)

/-- The while loop of iterate_pagerank, with fuel.  The loop body always
    runs at least once (max_val starts at 1.0 > 0.001) and the loop exits
    as soon as the tracked maximum change is no more than 0.001. -/
def iterLoop (c : Corpus) (d : ℚ) (rev : List (Page × List Page)) :
    Nat → Dist → Option Dist
  | 0, _ => none
  | fuel + 1, ranks =>
    let nr := stepRanks c d rev ranks
    if maxDiff ranks nr > 1 / 1000 then iterLoop c d rev fuel nr else some nr

/-- Initial ranks of iterate_pagerank: every page starts at 1/N. -/
def initRanks (c : Corpus) : Dist :=
  (keys c).map (fun p => (p, 1 / (c.length : ℚ)))

/-- iterate_pagerank(corpus, damping_factor), with fuel for the while loop. -/
def iterate_pagerank (c : Corpus) (d : ℚ) (fuel : Nat) : Option Dist :=
  iterLoop c d (reverseIndex c) fuel (initRanks c)

/-- Well-formed corpus: non-empty, duplicate-free keys, self-contained
    (every link target is itself a corpus key), out-neighbour sets
    duplicate-free. -/
structure WF (c : Corpus) : Prop where
  ne : c ≠ []
  nodupKeys : (keys c).Nodup
  selfContained : ∀ e ∈ c, ∀ l ∈ e.2, l ∈ keys c
  nodupOut : ∀ e ∈ c, e.2.Nodup

/-- Spec-side model ("every page in the corpus (keys and all referenced
    link targets)"): the distribution's pages per the spec's step 1. -/
def specPages (c : Corpus) : List Page :=
  (c.map Prod.fst ++ (c.map Prod.snd).flatten).dedup

/-- Spec-side model of the Transition Model's three steps: starting from 0,
    an additive share of d/|out(p)| on each out-neighbour of p (or d/|dist|
    on every page when p is dangling), plus (1-d)/|dist| on every page. -/
def transition_spec (c : Corpus) (p : Page) (d : ℚ) (x : Page) : ℚ :=
  let N : ℚ := ((specPages c).length : ℚ)
  let outs := dget c p []
  (if outs.length ≠ 0 then (if x ∈ outs then d / (outs.length : ℚ) else 0) else d / N)
    + (1 - d) / N

/-- Out-degree L(q) of the spec's recurrence. -/
def L (c : Corpus) (q : Page) : ℚ := ((dget c q []).length : ℚ)

/-- Spec-side model of the Reverse Index: the pages q with q → p. -/
def specReverse (c : Corpus) (p : Page) : List Page :=
  (keys c).filter (fun q => decide (p ∈ dget c q []))

/-- Spec-side model of the recurrence
    PR(p) = (1-d)/N + d * Σ over q → p of PR(q)/L(q). -/
def specPR (c : Corpus) (d : ℚ) (pr : Page → ℚ) (p : Page) : ℚ :=
  (1 - d) / (c.length : ℚ) + d * ((specReverse c p).map (fun q => pr q / L c q)).sum

/-- Spec-side renormalisation: divide every value by the current sum. -/
def specNormalize (c : Corpus) (f : Page → ℚ) : Page → ℚ :=
  fun p => f p / ((keys c).map f).sum

/-- Spec-side maximum absolute per-page change between old and new ranks. -/
def specMaxChange (c : Corpus) (old nw : Page → ℚ) : ℚ :=
  ((keys c).map (fun p => |nw p - old p|)).foldl max 0

/-- Spec-side convergence loop: Jacobi update, renormalise, stop as soon as
    the maximum change is at most 0.001. -/
def specLoop (c : Corpus) (d : ℚ) : Nat → (Page → ℚ) → Option (Page → ℚ)
  | 0, _ => none
  | fuel + 1, pr =>
    let nr := specNormalize c (specPR c d pr)
    if specMaxChange c pr nr ≤ 1 / 1000 then some nr else specLoop c d fuel nr

/-- Spec-side model of the Iterative Solver: start every page at 1/N, loop
    to convergence, return the final normalised mapping over the pages. -/
def iterate_rank_spec (c : Corpus) (d : ℚ) (fuel : Nat) : Option Dist :=
  (specLoop c d fuel (fun _ => 1 / (c.length : ℚ))).map
    (fun f => (keys c).map (fun p => (p, f p)))

/-! ### Generic dictionary lemmas -/

theorem dget_map_pair {α : Type} (ks : List Page) (f : Page → α) (x : Page) (d0 : α)
    (hx : x ∈ ks) : dget (ks.map (fun p => (p, f p))) x d0 = f x := by
  induction ks with
  | nil => cases hx
  | cons a rest ih =>
    rcases List.mem_cons.mp hx with h | h
    · subst h; simp [dget]
    · by_cases hax : a = x
      · subst hax; simp [dget]
      · simp [dget, hax, ih h]

theorem dget_map_pair_not {α : Type} (ks : List Page) (f : Page → α) (x : Page) (d0 : α)
    (hx : x ∉ ks) : dget (ks.map (fun p => (p, f p))) x d0 = d0 := by
  induction ks with
  | nil => rfl
  | cons a rest ih =>
    have hax : a ≠ x := fun h => hx (h ▸ List.mem_cons_self a rest)
    have hrest : x ∉ rest := fun h => hx (List.mem_cons_of_mem a h)
    simp [dget, hax, ih hrest]

theorem map_fst_pairs {α : Type} (ks : List Page) (f : Page → α) :
    (ks.map (fun p => (p, f p))).map Prod.fst = ks := by
  induction ks with
  | nil => rfl
  | cons a rest ih => simp [ih]

theorem map_fst_of_fst_eq {α β : Type} (m : List (Page × α)) (g : Page × α → Page × β)
    (hg : ∀ e, (g e).1 = e.1) : (m.map g).map Prod.fst = m.map Prod.fst := by
  simp only [List.map_map]
  exact List.map_congr_left (fun e _ => hg e)

theorem foldl_add_eq_sum {β : Type} (f : β → ℚ) :
    ∀ (l : List β) (a : ℚ), l.foldl (fun acc x => acc + f x) a = a + (l.map f).sum
  | [], a => by simp
  | x :: l, a => by
    simp [foldl_add_eq_sum f l (a + f x), add_assoc]

theorem dget_nonneg (m : Dist) (x : Page) (h : ∀ e ∈ m, 0 ≤ e.2) : 0 ≤ dget m x 0 := by
  induction m with
  | nil => simp [dget]
  | cons e rest ih =>
    by_cases he : e.1 = x
    · simpa [dget, he] using h e (List.mem_cons_self e rest)
    · simpa [dget, he] using ih (fun e' he' => h e' (List.mem_cons_of_mem _ he'))

theorem dget_zero_of_allZero (m : Dist) (x : Page) (h : ∀ e ∈ m, e.2 = 0) :
    dget m x 0 = 0 := by
  induction m with
  | nil => rfl
  | cons e rest ih =>
    by_cases he : e.1 = x
    · simpa [dget, he] using h e (List.mem_cons_self e rest)
    · simpa [dget, he] using ih (fun e' he' => h e' (List.mem_cons_of_mem _ he'))

theorem sumVals_zero_of_allZero (m : Dist) (h : ∀ e ∈ m, e.2 = 0) : sumVals m = 0 := by
  induction m with
  | nil => rfl
  | cons e rest ih =>
    have h0 := h e (List.mem_cons_self e rest)
    have ihr : sumVals rest = 0 := ih (fun e' he' => h e' (List.mem_cons_of_mem _ he'))
    simp only [sumVals, List.map_cons, List.sum_cons, h0, zero_add]
    exact ihr

/-! ### Lemmas about addTo and the value-shift passes of transition_model -/

theorem addTo_fst (m : Dist) (k : Page) (x : ℚ) :
    (addTo m k x).map Prod.fst = m.map Prod.fst := by
  apply map_fst_of_fst_eq
  intro e; by_cases h : e.1 = k <;> simp [h]

theorem addTo_length (m : Dist) (k : Page) (x : ℚ) : (addTo m k x).length = m.length := by
  simp [addTo]

theorem dget_addTo (m : Dist) (l : Page) (v : ℚ) (x : Page) :
    dget (addTo m l v) x 0 =
      if l = x ∧ x ∈ m.map Prod.fst then dget m x 0 + v else dget m x 0 := by
  induction m with
  | nil => simp [addTo, dget]
  | cons e rest ih =>
    obtain ⟨a, b⟩ := e
    by_cases hal : a = l <;> by_cases hax : a = x
    · subst hal; subst hax
      simp [addTo, dget]
    · subst hal
      have hax' : ¬ (a = x) := hax
      simp only [addTo, List.map_cons, if_pos rfl] at ih ⊢
      simp [dget, hax', ih, addTo]
    · subst hax
      have hla : ¬ (l = a) := fun h => hal h.symm
      simp [addTo, dget, hal, hla]
    · have hxa : ¬ (x = a) := fun h => hax h.symm
      simp only [addTo, List.map_cons] at ih ⊢
      simp [dget, hal, hax, hxa, ih, addTo]
      simp only [List.mem_cons, hxa, false_or]

theorem dget_mapAdd (m : Dist) (v : ℚ) (x : Page) :
    dget (m.map (fun e => (e.1, e.2 + v))) x 0 =
      if x ∈ m.map Prod.fst then dget m x 0 + v else dget m x 0 := by
  induction m with
  | nil => simp [dget]
  | cons e rest ih =>
    by_cases hex : e.1 = x
    · simp [dget, hex]
    · have hxe : ¬ (x = e.1) := fun h => hex h.symm
      simp [dget, hex, hxe, ih]
      simp only [List.mem_cons, hxe, false_or]

theorem foldl_addTo_fst (links : List Page) (v : ℚ) :
    ∀ (m : Dist), ((links.foldl (fun o l => addTo o l v) m).map Prod.fst) = m.map Prod.fst := by
  induction links with
  | nil => intro m; rfl
  | cons l rest ih => intro m; simp only [List.foldl_cons]; rw [ih, addTo_fst]

theorem foldl_addTo_length (links : List Page) (v : ℚ) :
    ∀ (m : Dist), (links.foldl (fun o l => addTo o l v) m).length = m.length := by
  induction links with
  | nil => intro m; rfl
  | cons l rest ih => intro m; simp only [List.foldl_cons]; rw [ih, addTo_length]

theorem dget_foldl_addTo (v : ℚ) (x : Page) :
    ∀ (links : List Page) (m : Dist), links.Nodup →
      dget (links.foldl (fun o l => addTo o l v) m) x 0 =
        if x ∈ links ∧ x ∈ m.map Prod.fst then dget m x 0 + v else dget m x 0
  | [], m, _ => by simp
  | l :: rest, m, h => by
    have hnd : rest.Nodup := (List.nodup_cons.mp h).2
    have hnl : l ∉ rest := (List.nodup_cons.mp h).1
    simp only [List.foldl_cons]
    rw [dget_foldl_addTo v x rest (addTo m l v) hnd, addTo_fst, dget_addTo]
    by_cases hlx : l = x
    · subst hlx
      have hlr : ¬ (l ∈ rest) := hnl
      by_cases hk : l ∈ m.map Prod.fst
      · simp [hk, hlr, List.mem_cons]
      · simp [hk, hlr, List.mem_cons]
    · have hxl : ¬ (x = l) := fun h => hlx h.symm
      by_cases hr : x ∈ rest
      · simp only [List.mem_cons, hr, or_true, true_and, hlx, false_and, if_false]
      · simp only [List.mem_cons, hxl, hr, false_or, false_and, if_false, hlx]

theorem dget_default_of_not_mem {α : Type} (m : List (Page × α)) (k : Page) (d0 : α)
    (h : k ∉ m.map Prod.fst) : dget m k d0 = d0 := by
  induction m with
  | nil => rfl
  | cons e rest ih =>
    have h1 : ¬ (e.1 = k) := fun hh => h (by simp [hh])
    have h2 : k ∉ rest.map Prod.fst := fun hh => h (by simp [hh])
    simp [dget, h1, ih h2]

theorem entry_mem_of_key {α : Type} [Inhabited α] (c : List (Page × α)) (p : Page)
    (d0 : α) (hp : p ∈ c.map Prod.fst) : (p, dget c p d0) ∈ c := by
  induction c with
  | nil => cases hp
  | cons e rest ih =>
    obtain ⟨a, b⟩ := e
    by_cases hap : a = p
    · subst hap; simp [dget]
    · have hpr : p ∈ rest.map Prod.fst := by
        rcases List.mem_cons.mp hp with h | h
        · exact absurd h.symm hap
        · exact h
      simp only [dget, hap, if_false]
      exact List.mem_cons_of_mem _ (ih hpr)

theorem dget_of_entry_nodup {α : Type} (c : List (Page × α)) (p : Page) (li : α)
    (d0 : α) (hnd : (c.map Prod.fst).Nodup) (hm : (p, li) ∈ c) : dget c p d0 = li := by
  induction c with
  | nil => cases hm
  | cons e rest ih =>
    obtain ⟨a, b⟩ := e
    rcases List.mem_cons.mp hm with h | h
    · injection h with h1 h2
      subst h1; subst h2
      simp [dget]
    · have hap : ¬ (a = p) := by
        intro hap
        subst hap
        have : a ∈ rest.map Prod.fst := List.mem_map.mpr ⟨(a, li), h, rfl⟩
        exact (List.nodup_cons.mp hnd).1 this
      simp only [dget, hap, if_false]
      exact ih (List.nodup_cons.mp hnd).2 h

theorem addTo_id_of_not_mem (m : Dist) (k : Page) (x : ℚ)
    (h : k ∉ m.map Prod.fst) : addTo m k x = m := by
  induction m with
  | nil => rfl
  | cons e rest ih =>
    have h1 : ¬ (e.1 = k) := fun hh => h (by simp [hh])
    have h2 : k ∉ rest.map Prod.fst := fun hh => h (by simp [hh])
    simp only [addTo] at ih ⊢
    simp [h1, ih h2]

theorem sumVals_cons (e : Page × ℚ) (m : Dist) : sumVals (e :: m) = e.2 + sumVals m := by
  simp [sumVals]

theorem sumVals_addTo (k : Page) (x : ℚ) :
    ∀ (m : Dist), k ∈ m.map Prod.fst → (m.map Prod.fst).Nodup →
      sumVals (addTo m k x) = sumVals m + x
  | [], hk, _ => by cases hk
  | e :: rest, hk, hnd => by
    by_cases he : e.1 = k
    · have hkr : k ∉ rest.map Prod.fst := he ▸ (List.nodup_cons.mp (by simpa using hnd)).1
      have : addTo (e :: rest) k x = (e.1, e.2 + x) :: rest := by
        simp only [addTo, List.map_cons, if_pos he]
        rw [show (List.map (fun e => if e.1 = k then (e.1, e.2 + x) else e) rest)
              = addTo rest k x from rfl, addTo_id_of_not_mem rest k x hkr]
      rw [this, sumVals_cons, sumVals_cons]
      ring
    · have hkr : k ∈ rest.map Prod.fst := by
        rcases List.mem_cons.mp hk with h | h
        · exact absurd h.symm he
        · exact h
      have hnd' : (rest.map Prod.fst).Nodup := (List.nodup_cons.mp (by simpa using hnd)).2
      have : addTo (e :: rest) k x = e :: addTo rest k x := by
        simp only [addTo, List.map_cons, if_neg he]
      rw [this, sumVals_cons, sumVals_cons, sumVals_addTo k x rest hkr hnd']
      ring

theorem sumVals_mapAdd (v : ℚ) : ∀ (m : Dist),
    sumVals (m.map (fun e => (e.1, e.2 + v))) = sumVals m + m.length * v
  | [] => by simp [sumVals]
  | e :: rest => by
    simp only [List.map_cons, sumVals_cons, List.length_cons, sumVals_mapAdd v rest]
    push_cast
    ring

theorem sumVals_foldl_addTo (v : ℚ) :
    ∀ (links : List Page) (m : Dist), (∀ l ∈ links, l ∈ m.map Prod.fst) →
      (m.map Prod.fst).Nodup →
      sumVals (links.foldl (fun o l => addTo o l v) m) = sumVals m + links.length * v
  | [], m, _, _ => by simp
  | l :: rest, m, hsub, hnd => by
    have hl : l ∈ m.map Prod.fst := hsub l (List.mem_cons_self l rest)
    have hsub' : ∀ x ∈ rest, x ∈ (addTo m l v).map Prod.fst := by
      intro x hx; rw [addTo_fst]; exact hsub x (List.mem_cons_of_mem _ hx)
    have hnd' : ((addTo m l v).map Prod.fst).Nodup := by rw [addTo_fst]; exact hnd
    simp only [List.foldl_cons, List.length_cons]
    rw [sumVals_foldl_addTo v rest (addTo m l v) hsub' hnd', sumVals_addTo l v m hl hnd]
    push_cast
    ring

/-! ### Lemmas about initOutput -/

theorem innerFold_keys (x : Page) :
    ∀ (li : List Page) (o : Dist),
      (x ∈ ((li.foldl (fun o l => if l ∈ o.map Prod.fst then o else o ++ [(l, 0)]) o).map
        Prod.fst)) ↔ x ∈ o.map Prod.fst ∨ x ∈ li
  | [], o => by simp
  | l :: rest, o => by
    by_cases hl : l ∈ o.map Prod.fst
    · rw [List.foldl_cons, if_pos hl, innerFold_keys x rest o]
      constructor
      · rintro (h | h)
        · exact Or.inl h
        · exact Or.inr (List.mem_cons_of_mem _ h)
      · rintro (h | h)
        · exact Or.inl h
        · rcases List.mem_cons.mp h with rfl | h2
          · exact Or.inl hl
          · exact Or.inr h2
    · rw [List.foldl_cons, if_neg hl, innerFold_keys x rest (o ++ [(l, 0)])]
      simp only [List.map_append, List.mem_append, List.map_cons, List.map_nil,
        List.mem_singleton, List.mem_cons]
      tauto

theorem innerFold_nodup :
    ∀ (li : List Page) (o : Dist), (o.map Prod.fst).Nodup →
      ((li.foldl (fun o l => if l ∈ o.map Prod.fst then o else o ++ [(l, 0)]) o).map
        Prod.fst).Nodup
  | [], o, h => h
  | l :: rest, o, h => by
    by_cases hl : l ∈ o.map Prod.fst
    · rw [List.foldl_cons, if_pos hl]
      exact innerFold_nodup rest o h
    · rw [List.foldl_cons, if_neg hl]
      apply innerFold_nodup rest
      simp only [List.map_append, List.map_cons, List.map_nil]
      rw [List.nodup_append]
      refine ⟨h, List.nodup_singleton l, ?_⟩
      intro a ha hmem
      rcases List.mem_singleton.mp hmem with rfl
      exact hl ha

theorem innerFold_allZero :
    ∀ (li : List Page) (o : Dist), (∀ e ∈ o, e.2 = 0) →
      ∀ e ∈ (li.foldl (fun o l => if l ∈ o.map Prod.fst then o else o ++ [(l, 0)]) o), e.2 = 0
  | [], o, h => h
  | l :: rest, o, h => by
    by_cases hl : l ∈ o.map Prod.fst
    · rw [List.foldl_cons, if_pos hl]
      exact innerFold_allZero rest o h
    · rw [List.foldl_cons, if_neg hl]
      apply innerFold_allZero rest
      intro e he
      rcases List.mem_append.mp he with h1 | h1
      · exact h e h1
      · rcases List.mem_singleton.mp h1 with rfl
        rfl

theorem length_eq_of_nodup_of_mem_iff (l1 l2 : List Page) (h1 : l1.Nodup)
    (h2 : l2.Nodup) (h : ∀ x, x ∈ l1 ↔ x ∈ l2) : l1.length = l2.length :=
  ((List.perm_ext_iff_of_nodup h1 h2).mpr h).length_eq

theorem outerFold_keys (x : Page) :
    ∀ (cs : List (Page × List Page)) (o : Dist),
      (x ∈ ((cs.foldl (fun out e =>
          let out1 := if e.1 ∈ out.map Prod.fst then out else out ++ [(e.1, 0)]
          e.2.foldl (fun o l => if l ∈ o.map Prod.fst then o else o ++ [(l, 0)]) out1) o).map
            Prod.fst)) ↔
        x ∈ o.map Prod.fst ∨ x ∈ cs.map Prod.fst ∨ ∃ e ∈ cs, x ∈ e.2
  | [], o => by simp
  | e :: rest, o => by
    rw [List.foldl_cons]
    rw [outerFold_keys x rest _]
    have hout1 : (x ∈ ((e.2.foldl
        (fun o l => if l ∈ o.map Prod.fst then o else o ++ [(l, 0)])
        (if e.1 ∈ o.map Prod.fst then o else o ++ [(e.1, 0)])).map Prod.fst)) ↔
        (x ∈ o.map Prod.fst ∨ x = e.1) ∨ x ∈ e.2 := by
      rw [innerFold_keys]
      by_cases he : e.1 ∈ o.map Prod.fst
      · rw [if_pos he]
        constructor
        · rintro (h | h)
          · exact Or.inl (Or.inl h)
          · exact Or.inr h
        · rintro ((h | h) | h)
          · exact Or.inl h
          · exact Or.inl (h ▸ he)
          · exact Or.inr h
      · rw [if_neg he]
        simp only [List.map_append, List.mem_append, List.map_cons, List.map_nil,
          List.mem_singleton]
    rw [hout1, List.map_cons, List.mem_cons, List.exists_mem_cons_iff]
    constructor
    · rintro (((h | h) | h) | h | h)
      · exact Or.inl h
      · exact Or.inr (Or.inl (Or.inl h))
      · exact Or.inr (Or.inr (Or.inl h))
      · exact Or.inr (Or.inl (Or.inr h))
      · exact Or.inr (Or.inr (Or.inr h))
    · rintro (h | (h | h) | (h | h))
      · exact Or.inl (Or.inl (Or.inl h))
      · exact Or.inl (Or.inl (Or.inr h))
      · exact Or.inr (Or.inl h)
      · exact Or.inl (Or.inr h)
      · exact Or.inr (Or.inr h)

theorem outerFold_nodup :
    ∀ (cs : List (Page × List Page)) (o : Dist), (o.map Prod.fst).Nodup →
      ((cs.foldl (fun out e =>
          let out1 := if e.1 ∈ out.map Prod.fst then out else out ++ [(e.1, 0)]
          e.2.foldl (fun o l => if l ∈ o.map Prod.fst then o else o ++ [(l, 0)]) out1) o).map
            Prod.fst).Nodup
  | [], _, h => h
  | e :: rest, o, h => by
    rw [List.foldl_cons]
    apply outerFold_nodup rest
    apply innerFold_nodup
    by_cases he : e.1 ∈ o.map Prod.fst
    · rw [if_pos he]; exact h
    · rw [if_neg he]
      simp only [List.map_append, List.map_cons, List.map_nil]
      rw [List.nodup_append]
      refine ⟨h, List.nodup_singleton _, ?_⟩
      intro a ha hmem
      rcases List.mem_singleton.mp hmem with rfl
      exact he ha

theorem outerFold_allZero :
    ∀ (cs : List (Page × List Page)) (o : Dist), (∀ e ∈ o, e.2 = 0) →
      ∀ e ∈ (cs.foldl (fun out e =>
          let out1 := if e.1 ∈ out.map Prod.fst then out else out ++ [(e.1, 0)]
          e.2.foldl (fun o l => if l ∈ o.map Prod.fst then o else o ++ [(l, 0)]) out1) o),
        e.2 = 0
  | [], _, h => h
  | e :: rest, o, h => by
    rw [List.foldl_cons]
    apply outerFold_allZero rest
    apply innerFold_allZero
    intro e' he'
    by_cases he : e.1 ∈ o.map Prod.fst
    · rw [if_pos he] at he'
      exact h e' he'
    · rw [if_neg he] at he'
      rcases List.mem_append.mp he' with h1 | h1
      · exact h e' h1
      · rcases List.mem_singleton.mp h1 with rfl
        rfl

theorem mem_initOutput_keys (c : Corpus) (x : Page) :
    x ∈ (initOutput c).map Prod.fst ↔ x ∈ keys c ∨ ∃ e ∈ c, x ∈ e.2 := by
  rw [initOutput, outerFold_keys]
  simp [keys]

theorem initOutput_keys_nodup (c : Corpus) : ((initOutput c).map Prod.fst).Nodup := by
  rw [initOutput]
  exact outerFold_nodup c [] (by simp)

theorem initOutput_allZero (c : Corpus) : ∀ e ∈ initOutput c, e.2 = 0 := by
  rw [initOutput]
  exact outerFold_allZero c [] (by simp)

theorem mem_initOutput_keys_wf (c : Corpus) (hwf : WF c) (x : Page) :
    x ∈ (initOutput c).map Prod.fst ↔ x ∈ keys c := by
  rw [mem_initOutput_keys]
  constructor
  · rintro (h | ⟨e, he, hx⟩)
    · exact h
    · exact hwf.selfContained e he x hx
  · exact Or.inl

theorem mem_specPages (c : Corpus) (x : Page) :
    x ∈ specPages c ↔ x ∈ keys c ∨ ∃ e ∈ c, x ∈ e.2 := by
  simp only [specPages, List.mem_dedup, List.mem_append, List.mem_flatten, List.mem_map,
    keys]
  constructor
  · rintro (h | ⟨li, ⟨e, he, rfl⟩, hx⟩)
    · exact Or.inl h
    · exact Or.inr ⟨e, he, hx⟩
  · rintro (h | ⟨e, he, hx⟩)
    · exact Or.inl h
    · exact Or.inr ⟨e.2, ⟨e, he, rfl⟩, hx⟩

theorem initOutput_length_eq_specPages (c : Corpus) :
    (initOutput c).length = (specPages c).length := by
  have h1 : (initOutput c).length = ((initOutput c).map Prod.fst).length := by simp
  have h2 : (specPages c).Nodup := by unfold specPages; exact List.nodup_dedup _
  rw [h1]
  exact length_eq_of_nodup_of_mem_iff _ _ (initOutput_keys_nodup c) h2
    (fun x => (mem_initOutput_keys c x).trans (mem_specPages c x).symm)

theorem initOutput_length_pos (c : Corpus) (hne : c ≠ []) : 0 < (initOutput c).length := by
  obtain ⟨e, rest, rfl⟩ := List.exists_cons_of_ne_nil hne
  have : e.1 ∈ (initOutput (e :: rest)).map Prod.fst := by
    rw [mem_initOutput_keys]
    exact Or.inl (by simp [keys])
  rcases List.mem_map.mp this with ⟨e', he', _⟩
  calc 0 < 1 := Nat.zero_lt_one
    _ ≤ (initOutput (e :: rest)).length := List.length_pos.mpr (List.ne_nil_of_mem he')

theorem links_entry (c : Corpus) (p : Page) (hp : p ∈ keys c) :
    (p, dget c p []) ∈ c := entry_mem_of_key c p [] hp

theorem links_subset_initOutput (c : Corpus) (p : Page) (hp : p ∈ keys c) :
    ∀ l ∈ dget c p [], l ∈ (initOutput c).map Prod.fst := by
  intro l hl
  rw [mem_initOutput_keys]
  exact Or.inr ⟨(p, dget c p []), links_entry c p hp, hl⟩

theorem links_nodup (c : Corpus) (p : Page) (hwf : WF c) : (dget c p []).Nodup := by
  by_cases hp : p ∈ keys c
  · exact hwf.nodupOut _ (links_entry c p hp)
  · rw [dget_default_of_not_mem c p [] hp]
    exact List.nodup_nil

theorem transition_model_fst (c : Corpus) (p : Page) (d : ℚ) :
    (transition_model c p d).map Prod.fst = (initOutput c).map Prod.fst := by
  simp only [transition_model]
  by_cases h : (dget c p []).length = 0
  · rw [if_neg (not_not_intro h)]
    simp only [List.map_map]
    rfl
  · rw [if_pos h]
    simp only [List.map_map]
    exact foldl_addTo_fst _ _ _

theorem transition_model_sum_eq_one (c : Corpus) (p : Page) (d : ℚ) (hwf : WF c)
    (hp : p ∈ keys c) : sumVals (transition_model c p d) = 1 := by
  have hO0 : sumVals (initOutput c) = 0 :=
    sumVals_zero_of_allZero _ (initOutput_allZero c)
  have hOlen : 0 < (initOutput c).length := initOutput_length_pos c hwf.ne
  have hOlenQ : ((initOutput c).length : ℚ) ≠ 0 :=
    Nat.cast_ne_zero.mpr (Nat.pos_iff_ne_zero.mp hOlen)
  simp only [transition_model]
  by_cases h : (dget c p []).length = 0
  · rw [if_neg (not_not_intro h)]
    rw [sumVals_mapAdd, sumVals_mapAdd, List.length_map, hO0]
    field_simp
  · rw [if_pos h]
    have hlinksQ : (((dget c p []).length : ℚ)) ≠ 0 :=
      Nat.cast_ne_zero.mpr h
    rw [sumVals_mapAdd,
      sumVals_foldl_addTo _ _ _ (links_subset_initOutput c p hp) (initOutput_keys_nodup c),
      foldl_addTo_length, hO0]
    field_simp

/-- C6: for every well-formed corpus, page of the corpus and damping factor in
    (0,1), the values of transition_model sum to 1.0 within 1e-9 (the sum is
    exactly 1 in exact rational arithmetic), whether or not the page is
    dangling. -/
theorem transition_sums_to_one (c : Corpus) (p : Page) (d : ℚ) (hwf : WF c)
    (hp : p ∈ keys c) (hd0 : 0 < d) (hd1 : d < 1) :
    |sumVals (transition_model c p d) - 1| ≤ 1 / 1000000000 := by
  rw [transition_model_sum_eq_one c p d hwf hp]
  norm_num

/-- Witness for C6 at a concrete two-page corpus (and, for the dangling case,
    see that the proof of the theorem covers both branches). -/
theorem transition_sums_to_one_witness :
    |sumVals (transition_model [("a", ["b"]), ("b", [])] "a" (17/20)) - 1| ≤ 1 / 1000000000 :=
  transition_sums_to_one [("a", ["b"]), ("b", [])] "a" (17/20)
    ⟨by decide, by decide, by decide, by decide⟩ (by decide) (by norm_num) (by norm_num)

theorem dget_mapAdd_of_mem (m : Dist) (v : ℚ) (x : Page) (hx : x ∈ m.map Prod.fst) :
    dget (m.map (fun e => (e.1, e.2 + v))) x 0 = dget m x 0 + v := by
  rw [dget_mapAdd, if_pos hx]

theorem dget_transition_model (c : Corpus) (p : Page) (d : ℚ) (hwf : WF c)
    (hp : p ∈ keys c) (x : Page) (hx : x ∈ keys c) :
    dget (transition_model c p d) x 0 =
      (if (dget c p []).length ≠ 0 then
        (if x ∈ dget c p [] then d / ((dget c p []).length : ℚ) else 0)
      else d / (((initOutput c).length : ℚ)))
      + (1 - d) / (((initOutput c).length : ℚ)) := by
  have hxO : x ∈ (initOutput c).map Prod.fst := (mem_initOutput_keys_wf c hwf x).mpr hx
  simp only [transition_model]
  by_cases h : (dget c p []).length = 0
  · rw [if_neg (not_not_intro h), if_neg (not_not_intro h)]
    have hk1 : (List.map (fun e => (e.1, e.2 + d / ((initOutput c).length : ℚ)))
        (initOutput c)).map Prod.fst = (initOutput c).map Prod.fst :=
      map_fst_of_fst_eq _ _ (fun e => rfl)
    rw [dget_mapAdd_of_mem _ _ _ (by rw [hk1]; exact hxO)]
    rw [dget_mapAdd_of_mem _ _ _ hxO]
    rw [dget_zero_of_allZero _ _ (initOutput_allZero c)]
    rw [List.length_map]
    ring
  · rw [if_pos h, if_pos h]
    have hkF : ((dget c p []).foldl
        (fun o l => addTo o l (d / ((dget c p []).length : ℚ)))
        (initOutput c)).map Prod.fst = (initOutput c).map Prod.fst :=
      foldl_addTo_fst _ _ _
    rw [dget_mapAdd_of_mem _ _ _ (by rw [hkF]; exact hxO)]
    rw [dget_foldl_addTo _ _ _ _ (links_nodup c p hwf)]
    rw [dget_zero_of_allZero _ _ (initOutput_allZero c)]
    rw [foldl_addTo_length]
    simp only [hxO, and_true]
    by_cases hxl : x ∈ dget c p [] <;> simp [hxl]

/-- C2: for every well-formed corpus, page p of the corpus and damping factor
    in (0,1), transition_model covers exactly the pages appearing as a key or
    as an out-neighbour, and assigns to each page of the corpus exactly the
    value given by the spec's three steps (zero start, then the damping share
    — out-neighbour share or, for a dangling p, the uniform share — then the
    uniform (1-d)/|distribution| share). -/
theorem transition_matches_spec (c : Corpus) (p : Page) (d : ℚ) (hwf : WF c)
    (hp : p ∈ keys c) (hd0 : 0 < d) (hd1 : d < 1) :
    (∀ x, x ∈ (transition_model c p d).map Prod.fst ↔ x ∈ specPages c) ∧
    ∀ x ∈ keys c, dget (transition_model c p d) x 0 = transition_spec c p d x := by
  constructor
  · intro x
    rw [transition_model_fst, mem_initOutput_keys]
    exact (mem_specPages c x).symm
  · intro x hx
    rw [dget_transition_model c p d hwf hp x hx]
    simp only [transition_spec]
    rw [initOutput_length_eq_specPages]

/-- Witness for C2 at a concrete two-page corpus with a dangling page. -/
theorem transition_matches_spec_witness :
    (∀ x, x ∈ (transition_model [("a", ["b"]), ("b", [])] "a" (17/20)).map Prod.fst ↔
        x ∈ specPages [("a", ["b"]), ("b", [])]) ∧
    ∀ x ∈ keys [("a", ["b"]), ("b", [])],
      dget (transition_model [("a", ["b"]), ("b", [])] "a" (17/20)) x 0 =
        transition_spec [("a", ["b"]), ("b", [])] "a" (17/20) x :=
  transition_matches_spec _ _ _ ⟨by decide, by decide, by decide, by decide⟩ (by decide)
    (by norm_num) (by norm_num)

/-! ### Lemmas about the sampler -/

theorem getD_mem (l : List Page) (i : Nat) (dflt : Page) (h : i < l.length) :
    l.getD i dflt ∈ l := by
  induction l generalizing i with
  | nil => exact absurd h (Nat.not_lt_zero i)
  | cons a rest ih =>
    cases i with
    | zero => simp [List.getD]
    | succ j =>
      have hj : j < rest.length := Nat.lt_of_succ_lt_succ h
      simpa [List.getD] using List.mem_cons_of_mem a (ih j hj)

theorem transition_pop_mem (c : Corpus) (page : Page) (d : ℚ) (hwf : WF c) (x : Page)
    (hx : x ∈ (transition_model c page d).map Prod.fst) : x ∈ keys c := by
  rw [transition_model_fst] at hx
  exact (mem_initOutput_keys_wf c hwf x).mp hx

theorem transition_pop_length_pos (c : Corpus) (page : Page) (d : ℚ) (hne : c ≠ []) :
    0 < ((transition_model c page d).map Prod.fst).length := by
  rw [transition_model_fst, List.length_map]
  exact initOutput_length_pos c hne

theorem sampleLoop_mem (c : Corpus) (d : ℚ) (rnd : Nat → Nat) (hwf : WF c) :
    ∀ (k i : Nat) (page : Page), ∀ x ∈ sampleLoop c d rnd k i page, x ∈ keys c
  | 0, _, _, x, hx => by cases hx
  | k + 1, i, page, x, hx => by
    simp only [sampleLoop] at hx
    have hpop := transition_pop_length_pos c page d hwf.ne
    have hnext : ((transition_model c page d).map Prod.fst).getD
        (rnd i % ((transition_model c page d).map Prod.fst).length) "" ∈
        (transition_model c page d).map Prod.fst :=
      getD_mem _ _ _ (Nat.mod_lt _ hpop)
    rcases List.mem_cons.mp hx with rfl | h
    · exact transition_pop_mem c page d hwf _ hnext
    · exact sampleLoop_mem c d rnd hwf k (i + 1) _ x h

theorem sampleLoop_length (c : Corpus) (d : ℚ) (rnd : Nat → Nat) :
    ∀ (k i : Nat) (page : Page), (sampleLoop c d rnd k i page).length = k
  | 0, _, _ => rfl
  | k + 1, i, page => by
    simp only [sampleLoop, List.length_cons]
    rw [sampleLoop_length c d rnd k (i + 1) _]

theorem samplesOf_mem (c : Corpus) (d : ℚ) (n : Int) (rnd : Nat → Nat) (hwf : WF c) :
    ∀ x ∈ samplesOf c d n rnd, x ∈ keys c := by
  intro x hx
  have hlen : 0 < (keys c).length := by
    rw [keys, List.length_map]
    exact List.length_pos.mpr hwf.ne
  simp only [samplesOf] at hx
  rcases List.mem_cons.mp hx with rfl | h
  · have : c.length = (keys c).length := by rw [keys, List.length_map]
    exact getD_mem _ _ _ (this ▸ Nat.mod_lt _ (this ▸ hlen))
  · exact sampleLoop_mem c d rnd hwf _ _ _ x h

theorem samplesOf_length (c : Corpus) (d : ℚ) (n : Int) (rnd : Nat → Nat) :
    (samplesOf c d n rnd).length = 1 + (n - 1).toNat := by
  simp only [samplesOf, List.length_cons, sampleLoop_length]
  omega

theorem sum_map_add_split (ks : List Page) (f g : Page → ℚ) :
    ((ks.map (fun k => f k + g k)).sum) = (ks.map f).sum + (ks.map g).sum := by
  induction ks with
  | nil => simp
  | cons a rest ih => simp [ih]; ring

theorem sum_indicator_zero (ks : List Page) (a : Page) (ha : a ∉ ks) :
    ((ks.map (fun k => if k = a then (1 : ℚ) else 0)).sum) = 0 := by
  induction ks with
  | nil => rfl
  | cons b rest ih =>
    have hba : ¬ (b = a) := fun h => ha (h ▸ List.mem_cons_self b rest)
    have har : a ∉ rest := fun h => ha (List.mem_cons_of_mem _ h)
    simp [hba, ih har]

theorem sum_indicator_one (ks : List Page) (a : Page) (hnd : ks.Nodup) (ha : a ∈ ks) :
    ((ks.map (fun k => if k = a then (1 : ℚ) else 0)).sum) = 1 := by
  induction ks with
  | nil => cases ha
  | cons b rest ih =>
    rcases List.mem_cons.mp ha with rfl | h
    · have hnr : a ∉ rest := (List.nodup_cons.mp hnd).1
      simp [sum_indicator_zero rest a hnr]
    · have hba : ¬ (b = a) := fun hh => (List.nodup_cons.mp hnd).1 (hh ▸ h)
      simp [hba, ih (List.nodup_cons.mp hnd).2 h]

theorem sum_count_eq_length (ks : List Page) (hnd : ks.Nodup) :
    ∀ (l : List Page), (∀ x ∈ l, x ∈ ks) →
      ((ks.map (fun k => ((l.count k : ℚ)))).sum) = l.length
  | [] => by simp
  | a :: rest => fun hsub => by
    have hcnt : ∀ k : Page, (((a :: rest).count k : ℚ)) =
        (rest.count k : ℚ) + if k = a then 1 else 0 := by
      intro k
      rw [List.count_cons]
      by_cases h : k = a
      · simp [h]
      · simp [h, Ne.symm h]
    have hmapeq : ks.map (fun k => (((a :: rest).count k : ℚ))) =
        ks.map (fun k => (rest.count k : ℚ) + if k = a then 1 else 0) :=
      List.map_congr_left (fun k _ => hcnt k)
    rw [hmapeq, sum_map_add_split,
      sum_count_eq_length ks hnd rest (fun x hx => hsub x (List.mem_cons_of_mem _ hx)),
      sum_indicator_one ks a hnd (hsub a (List.mem_cons_self a rest))]
    simp [List.length_cons]

theorem sumVals_pairs (ks : List Page) (f : Page → ℚ) :
    sumVals (ks.map (fun p => (p, f p))) = (ks.map f).sum := by
  induction ks with
  | nil => rfl
  | cons a rest ih => simp [sumVals, List.map_cons] at ih ⊢; exact ih

/-- C3 counterexample: sample_pagerank called with n = -1 ≤ 0 on a one-page
    corpus does not fail: it returns a mapping (with value 1/(-1) = -1), so
    the claim that every call with n ≤ 0 fails fast and never returns a
    mapping is false of the code. -/
theorem sample_pagerank_neg_n_counterexample :
    ((-1 : Int) ≤ 0) ∧
      sample_pagerank [("a", [])] (1/2) (-1) (fun _ => 0) = .ok [("a", -1)] := by
  constructor
  · decide
  · norm_num [sample_pagerank, samplesOf, sampleLoop, keys]

/-- C3 amended: an empty corpus does fail fast (random.randint(0,-1) raises
    before any sampling), and n = 0 on a non-empty corpus raises a
    division-by-zero error at the final count/n division and returns no
    mapping; but a negative n on a non-empty corpus is not rejected — the
    call returns a mapping (whose values are count/n). -/
theorem sample_pagerank_invalid_inputs (c : Corpus) (d : ℚ) (n : Int) (rnd : Nat → Nat) :
    (c = [] → sample_pagerank c d n rnd = .error "ValueError: empty range for randrange()") ∧
    (c ≠ [] → n = 0 →
      sample_pagerank c d n rnd = .error "ZeroDivisionError: float division by zero") := by
  constructor
  · rintro rfl
    rfl
  · intro hc hn
    have hlen : ¬ (c.length = 0) := fun h => hc (List.length_eq_zero.mp h)
    subst hn
    simp only [sample_pagerank, if_neg hlen]
    rfl

/-- Witness for the amended C3: both failing branches at concrete inputs. -/
theorem sample_pagerank_invalid_inputs_witness :
    sample_pagerank ([] : Corpus) (1/2) 5 (fun _ => 0) =
      .error "ValueError: empty range for randrange()" ∧
    sample_pagerank [("a", [])] (1/2) 0 (fun _ => 0) =
      .error "ZeroDivisionError: float division by zero" :=
  ⟨(sample_pagerank_invalid_inputs ([] : Corpus) (1/2) 5 (fun _ => 0)).1 rfl,
   (sample_pagerank_invalid_inputs [("a", [])] (1/2) 0 (fun _ => 0)).2 (by decide) rfl⟩

/-- C4: for a well-formed corpus, damping factor in (0,1) and n ≥ 1, the
    mapping sample_pagerank returns has exactly the corpus's pages as keys,
    each value is the page's count in the n-element sample sequence divided
    by n, and the values sum to exactly 1. -/
theorem sample_counts_sum_one (c : Corpus) (d : ℚ) (n : Int) (rnd : Nat → Nat)
    (out : Dist) (hwf : WF c) (hd0 : 0 < d) (hd1 : d < 1) (hn : 1 ≤ n)
    (hout : sample_pagerank c d n rnd = .ok out) :
    out.map Prod.fst = keys c ∧
    (∀ e ∈ out, e.2 = ((samplesOf c d n rnd).count e.1 : ℚ) / (n : ℚ)) ∧
    sumVals out = 1 := by
  have hlen : ¬ (c.length = 0) := fun h => hwf.ne (List.length_eq_zero.mp h)
  have hn0 : ¬ (n = 0) := by omega
  simp only [sample_pagerank, if_neg hlen, if_neg hn0] at hout
  have hout' : out = (keys c).map
      (fun name => (name, ((samplesOf c d n rnd).count name : ℚ) / (n : ℚ))) :=
    (Except.ok.inj hout).symm
  subst hout'
  refine ⟨map_fst_pairs _ _, ?_, ?_⟩
  · intro e he
    rcases List.mem_map.mp he with ⟨k, _, rfl⟩
    rfl
  · have hknd : (keys c).Nodup := hwf.nodupKeys
    have hsub : ∀ x ∈ samplesOf c d n rnd, x ∈ keys c := samplesOf_mem c d n rnd hwf
    have hnQ : ((n : ℚ)) ≠ 0 := by
      intro h
      exact hn0 (by exact_mod_cast h)
    have hdiv : ∀ k : Page, ((samplesOf c d n rnd).count k : ℚ) / (n : ℚ) =
        ((samplesOf c d n rnd).count k : ℚ) * (1 / (n : ℚ)) := by
      intro k; ring
    rw [sumVals_pairs]
    rw [List.map_congr_left (fun k _ => hdiv k), List.sum_map_mul_right,
      sum_count_eq_length (keys c) hknd (samplesOf c d n rnd) hsub]
    rw [samplesOf_length]
    have hcast : (((1 + (n - 1).toNat : Nat)) : ℚ) = (n : ℚ) := by
      have h1 : (((n - 1).toNat : Int)) = n - 1 := Int.toNat_of_nonneg (by omega)
      have h2 : (((n - 1).toNat : ℚ)) = (n : ℚ) - 1 := by exact_mod_cast h1
      rw [Nat.cast_add, Nat.cast_one, h2]
      ring
    rw [hcast]
    field_simp

/-- Witness for C4: a one-page corpus with n = 1 returns the mapping with
    the single value 1. -/
theorem sample_counts_sum_one_witness :
    ([("a", (1 : ℚ))] : Dist).map Prod.fst = keys [("a", [])] ∧
    (∀ e ∈ ([("a", (1 : ℚ))] : Dist),
      e.2 = ((samplesOf [("a", [])] (1/2) 1 (fun _ => 0)).count e.1 : ℚ) / ((1 : Int) : ℚ)) ∧
    sumVals [("a", (1 : ℚ))] = 1 :=
  sample_counts_sum_one [("a", [])] (1/2) 1 (fun _ => 0) [("a", (1 : ℚ))]
    ⟨by decide, by decide, by decide, by decide⟩ (by norm_num) (by norm_num) (by norm_num)
    (by norm_num [sample_pagerank, samplesOf, sampleLoop, keys])

/-! ### Lemmas about the reverse index -/

theorem addToSet_fst (m : List (Page × List Page)) (i k : Page) :
    (addToSet m i k).map Prod.fst = m.map Prod.fst := by
  apply map_fst_of_fst_eq
  intro e; by_cases h : e.1 = i <;> simp [h]

theorem dget_addToSet_ne (m : List (Page × List Page)) (i k p : Page) (h : ¬ (i = p)) :
    dget (addToSet m i k) p [] = dget m p [] := by
  induction m with
  | nil => rfl
  | cons e rest ih =>
    by_cases hep : e.1 = p
    · have hei : ¬ (e.1 = i) := fun hh => h (hh ▸ hep)
      have hpi : ¬ (p = i) := fun hh => h hh.symm
      simp [addToSet, dget, hep, hei, hpi]
    · by_cases hei : e.1 = i
      · simp only [addToSet, List.map_cons, if_pos hei] at *
        simp [dget, hep, ih]
      · simp only [addToSet, List.map_cons, if_neg hei] at *
        simp [dget, hep, ih]

theorem dget_addToSet_self (m : List (Page × List Page)) (p k : Page)
    (hp : p ∈ m.map Prod.fst) :
    dget (addToSet m p k) p [] =
      if k ∈ dget m p [] then dget m p [] else dget m p [] ++ [k] := by
  induction m with
  | nil => cases hp
  | cons e rest ih =>
    by_cases hep : e.1 = p
    · simp [addToSet, dget, hep]
    · have hpr : p ∈ rest.map Prod.fst := by
        rcases List.mem_cons.mp hp with h | h
        · exact absurd h.symm hep
        · exact h
      simp only [addToSet, List.map_cons, if_neg hep] at *
      simp [dget, hep, ih hpr]

theorem dget_addToSet_nokey (m : List (Page × List Page)) (p k : Page)
    (hp : p ∉ m.map Prod.fst) :
    dget (addToSet m p k) p [] = dget m p [] := by
  rw [dget_default_of_not_mem m p [] hp,
    dget_default_of_not_mem _ p [] (by rw [addToSet_fst]; exact hp)]

theorem revInner_fst (key : Page) :
    ∀ (li : List Page) (rev : List (Page × List Page)),
      ((li.foldl (fun r i => addToSet r i key) rev).map Prod.fst) = rev.map Prod.fst
  | [], _ => rfl
  | i :: rest, rev => by
    rw [List.foldl_cons, revInner_fst key rest _, addToSet_fst]

theorem revInner_dget (key : Page) :
    ∀ (li : List Page) (rev : List (Page × List Page)) (p : Page),
      li.Nodup → (∀ q ∈ li, key ∉ dget rev q []) →
      dget (li.foldl (fun r i => addToSet r i key) rev) p [] =
        if p ∈ li ∧ p ∈ rev.map Prod.fst then dget rev p [] ++ [key] else dget rev p []
  | [], rev, p, _, _ => by simp
  | i :: rest, rev, p, hnd, hfresh => by
    have hir : i ∉ rest := (List.nodup_cons.mp hnd).1
    have hndr : rest.Nodup := (List.nodup_cons.mp hnd).2
    have hkeyi : key ∉ dget rev i [] := hfresh i (List.mem_cons_self i rest)
    rw [List.foldl_cons]
    have hfresh' : ∀ q ∈ rest, key ∉ dget (addToSet rev i key) q [] := by
      intro q hq
      have hiq : ¬ (i = q) := fun h => hir (h ▸ hq)
      rw [dget_addToSet_ne rev i key q hiq]
      exact hfresh q (List.mem_cons_of_mem _ hq)
    rw [revInner_dget key rest (addToSet rev i key) p hndr hfresh']
    rw [addToSet_fst]
    by_cases hip : i = p
    · subst hip
      by_cases hk : i ∈ rev.map Prod.fst
      · rw [dget_addToSet_self rev i key hk, if_neg hkeyi]
        simp [hir, hk, List.mem_cons]
      · rw [dget_addToSet_nokey rev i key hk]
        simp [hir, hk, List.mem_cons]
    · rw [dget_addToSet_ne rev i key p hip]
      have hiff : (p ∈ rest ∧ p ∈ rev.map Prod.fst) ↔
          (p ∈ i :: rest ∧ p ∈ rev.map Prod.fst) :=
        and_congr_left fun _ => ⟨List.mem_cons_of_mem i, fun h2 => by
          rcases List.mem_cons.mp h2 with h3 | h3
          · exact absurd h3 (fun hh => hip hh.symm)
          · exact h3⟩
      exact if_congr hiff rfl rfl

theorem nodup_fst_cons {e : Page × List Page} {rest : List (Page × List Page)}
    (h : ((e :: rest).map Prod.fst).Nodup) :
    e.1 ∉ rest.map Prod.fst ∧ (rest.map Prod.fst).Nodup := by
  rw [List.map_cons] at h
  exact ⟨(List.nodup_cons.mp h).1, (List.nodup_cons.mp h).2⟩

theorem revOuter_fst :
    ∀ (entries : List (Page × List Page)) (rev : List (Page × List Page)),
      ((entries.foldl (fun rv e => e.2.foldl (fun r i => addToSet r i e.1) rv) rev).map
        Prod.fst) = rev.map Prod.fst
  | [], _ => rfl
  | e :: rest, rev => by
    rw [List.foldl_cons, revOuter_fst rest _, revInner_fst]

theorem revOuter_dget :
    ∀ (entries : List (Page × List Page)) (rev : List (Page × List Page)) (p : Page),
      (entries.map Prod.fst).Nodup →
      (∀ e ∈ entries, e.2.Nodup) →
      (∀ e ∈ entries, ∀ l ∈ e.2, l ∈ rev.map Prod.fst) →
      (∀ e ∈ entries, ∀ q, e.1 ∉ dget rev q []) →
      dget (entries.foldl (fun rv e => e.2.foldl (fun r i => addToSet r i e.1) rv) rev) p [] =
        dget rev p [] ++ (entries.filter (fun e => decide (p ∈ e.2))).map Prod.fst
  | [], rev, p, _, _, _, _ => by simp
  | e :: rest, rev, p, hnd, hout, htgt, hfresh => by
    have hefst : e.1 ∉ rest.map Prod.fst := (nodup_fst_cons hnd).1
    have hndr : (rest.map Prod.fst).Nodup := (nodup_fst_cons hnd).2
    have hinner : ∀ x, dget (e.2.foldl (fun r i => addToSet r i e.1) rev) x [] =
        if x ∈ e.2 ∧ x ∈ rev.map Prod.fst then dget rev x [] ++ [e.1] else dget rev x [] :=
      fun x => revInner_dget e.1 e.2 rev x (hout e (List.mem_cons_self e rest))
        (fun q _ => hfresh e (List.mem_cons_self e rest) q)
    rw [List.foldl_cons]
    have hkeys1 : ((e.2.foldl (fun r i => addToSet r i e.1) rev).map Prod.fst) =
        rev.map Prod.fst := revInner_fst e.1 e.2 rev
    have houtr : ∀ e' ∈ rest, e'.2.Nodup := fun e' h => hout e' (List.mem_cons_of_mem _ h)
    have htgtr : ∀ e' ∈ rest, ∀ l ∈ e'.2,
        l ∈ (e.2.foldl (fun r i => addToSet r i e.1) rev).map Prod.fst := by
      intro e' h l hl
      rw [hkeys1]
      exact htgt e' (List.mem_cons_of_mem _ h) l hl
    have hfreshr : ∀ e' ∈ rest, ∀ q,
        e'.1 ∉ dget (e.2.foldl (fun r i => addToSet r i e.1) rev) q [] := by
      intro e' h q
      rw [hinner q]
      have hne : ¬ (e'.1 = e.1) := by
        intro hh
        exact hefst (hh ▸ List.mem_map.mpr ⟨e', h, rfl⟩)
      have hbase : e'.1 ∉ dget rev q [] := hfresh e' (List.mem_cons_of_mem _ h) q
      by_cases hcond : q ∈ e.2 ∧ q ∈ rev.map Prod.fst
      · rw [if_pos hcond]
        intro hmem
        rcases List.mem_append.mp hmem with h1 | h1
        · exact hbase h1
        · exact hne (List.mem_singleton.mp h1)
      · rw [if_neg hcond]
        exact hbase
    rw [revOuter_dget rest _ p hndr houtr htgtr hfreshr]
    rw [hinner p]
    by_cases hpe : p ∈ e.2
    · have hpk : p ∈ rev.map Prod.fst := htgt e (List.mem_cons_self e rest) p hpe
      rw [if_pos ⟨hpe, hpk⟩]
      have hfilter : (e :: rest).filter (fun e => decide (p ∈ e.2)) =
          e :: rest.filter (fun e => decide (p ∈ e.2)) := by
        rw [List.filter_cons]
        simp [hpe]
      rw [hfilter, List.map_cons, List.append_assoc, List.singleton_append]
    · rw [if_neg (fun hc => hpe hc.1)]
      have hfilter : (e :: rest).filter (fun e => decide (p ∈ e.2)) =
          rest.filter (fun e => decide (p ∈ e.2)) := by
        rw [List.filter_cons]
        simp [hpe]
      rw [hfilter]

theorem reverseIndex_fst (c : Corpus) : (reverseIndex c).map Prod.fst = keys c := by
  rw [reverseIndex, revOuter_fst, map_fst_pairs]

theorem reverseIndex_dget (c : Corpus) (hwf : WF c) (p : Page) :
    dget (reverseIndex c) p [] = (c.filter (fun e => decide (p ∈ e.2))).map Prod.fst := by
  have hrev0 : ∀ q, dget ((keys c).map (fun x => (x, ([] : List Page)))) q [] = [] := by
    intro q
    by_cases hq : q ∈ keys c
    · exact dget_map_pair (keys c) (fun _ => []) q [] hq
    · exact dget_map_pair_not (keys c) (fun _ => []) q [] hq
  have hkeys0 : (((keys c).map (fun x => (x, ([] : List Page)))).map Prod.fst) = keys c :=
    map_fst_pairs _ _
  rw [reverseIndex]
  rw [revOuter_dget c _ p (by rw [show c.map Prod.fst = keys c from rfl]; exact hwf.nodupKeys)
    hwf.nodupOut
    (fun e he l hl => by rw [hkeys0]; exact hwf.selfContained e he l hl)
    (fun e _ q => by rw [hrev0 q]; exact List.not_mem_nil e.1)]
  rw [hrev0 p, List.nil_append]

theorem filter_map_fst_eq_specReverse (c : Corpus) (hnd : (keys c).Nodup) (p : Page) :
    (c.filter (fun e => decide (p ∈ e.2))).map Prod.fst = specReverse c p := by
  induction c with
  | nil => rfl
  | cons e rest ih =>
    have hefst : e.1 ∉ rest.map Prod.fst := (nodup_fst_cons hnd).1
    have hndr : (keys rest).Nodup := (nodup_fst_cons hnd).2
    have hhead : dget (e :: rest) e.1 [] = e.2 := by simp [dget]
    have hcong : (rest.map Prod.fst).filter (fun q => decide (p ∈ dget (e :: rest) q [])) =
        (rest.map Prod.fst).filter (fun q => decide (p ∈ dget rest q [])) := by
      apply List.filter_congr
      intro q hq
      have hne : ¬ (e.1 = q) := fun h => hefst (h ▸ hq)
      simp [dget, hne]
    show ((e :: rest).filter (fun x => decide (p ∈ x.2))).map Prod.fst =
      ((e :: rest).map Prod.fst).filter (fun q => decide (p ∈ dget (e :: rest) q []))
    rw [List.filter_cons, List.map_cons, List.filter_cons, hhead]
    by_cases hpe : p ∈ e.2
    · rw [if_pos (by simp [hpe]), if_pos (by simp [hpe]), List.map_cons, hcong, ih hndr]
      rfl
    · rw [if_neg (by simp [hpe]), if_neg (by simp [hpe]), hcong, ih hndr]
      rfl

theorem reverseIndex_eq_specReverse (c : Corpus) (hwf : WF c) (p : Page) :
    dget (reverseIndex c) p [] = specReverse c p := by
  rw [reverseIndex_dget c hwf p, filter_map_fst_eq_specReverse c hwf.nodupKeys p]

/-! ### The iterative solver follows the spec's algorithm -/

theorem pagerank_formula_eq_specPR (c : Corpus) (hwf : WF c) (d : ℚ) (pr : Page → ℚ)
    (p : Page) :
    pagerank_formula c p d ((keys c).map (fun q => (q, pr q))) (reverseIndex c) =
      specPR c d pr p := by
  simp only [pagerank_formula, specPR]
  rw [reverseIndex_eq_specReverse c hwf p]
  rw [foldl_add_eq_sum
    (fun link => dget ((keys c).map (fun q => (q, pr q))) link 0 /
      ((dget c link []).length : ℚ)) (specReverse c p) 0]
  rw [zero_add]
  have hcong : ∀ q ∈ specReverse c p,
      dget ((keys c).map (fun x => (x, pr x))) q 0 / ((dget c q []).length : ℚ) =
        pr q / L c q := by
    intro q hq
    have hqk : q ∈ keys c := (List.mem_filter.mp hq).1
    rw [dget_map_pair (keys c) pr q 0 hqk]
    rfl
  rw [List.map_congr_left hcong]

theorem newRankRaw_keyedMap (c : Corpus) (hwf : WF c) (d : ℚ) (pr : Page → ℚ) :
    newRankRaw c d (reverseIndex c) ((keys c).map (fun q => (q, pr q))) =
      (keys c).map (fun q => (q, specPR c d pr q)) := by
  unfold newRankRaw
  rw [List.map_map]
  apply List.map_congr_left
  intro q _
  show (q, pagerank_formula c q d ((keys c).map (fun x => (x, pr x))) (reverseIndex c)) =
    (q, specPR c d pr q)
  rw [pagerank_formula_eq_specPR c hwf d pr q]

theorem normalize_keyedMap (c : Corpus) (g : Page → ℚ) :
    normalize ((keys c).map (fun q => (q, g q))) =
      (keys c).map (fun q => (q, specNormalize c g q)) := by
  simp only [normalize, specNormalize]
  rw [sumVals_pairs]
  rw [List.map_map]
  apply List.map_congr_left
  intro q _
  show (q, g q * (1 / ((keys c).map g).sum)) = (q, g q / ((keys c).map g).sum)
  rw [mul_one_div]

theorem foldl_max_congr (l : List Page) (f1 f2 : Page → ℚ)
    (h : ∀ x ∈ l, f1 x = f2 x) :
    ∀ a, l.foldl (fun m x => max m (f1 x)) a = l.foldl (fun m x => max m (f2 x)) a := by
  induction l with
  | nil => intro a; rfl
  | cons x rest ih =>
    intro a
    simp only [List.foldl_cons]
    rw [h x (List.mem_cons_self x rest)]
    exact ih (fun y hy => h y (List.mem_cons_of_mem _ hy)) _

theorem maxDiff_keyedMap (c : Corpus) (f g : Page → ℚ) :
    maxDiff ((keys c).map (fun q => (q, f q))) ((keys c).map (fun q => (q, g q))) =
      specMaxChange c f g := by
  unfold maxDiff specMaxChange
  rw [List.foldl_map, List.foldl_map]
  exact foldl_max_congr (keys c)
    (fun q => |dget ((keys c).map (fun x => (x, g x))) q 0 - f q|)
    (fun q => |g q - f q|)
    (fun q hq => by
      show |dget ((keys c).map (fun x => (x, g x))) q 0 - f q| = |g q - f q|
      rw [dget_map_pair (keys c) g q 0 hq]) 0

theorem iterLoop_eq_specLoop (c : Corpus) (hwf : WF c) (d : ℚ) :
    ∀ (fuel : Nat) (pr : Page → ℚ),
      iterLoop c d (reverseIndex c) fuel ((keys c).map (fun q => (q, pr q))) =
        (specLoop c d fuel pr).map (fun f => (keys c).map (fun q => (q, f q)))
  | 0, pr => rfl
  | fuel + 1, pr => by
    simp only [iterLoop, specLoop, stepRanks]
    rw [newRankRaw_keyedMap c hwf d pr, normalize_keyedMap c _, maxDiff_keyedMap c _ _]
    by_cases hmv : specMaxChange c pr (specNormalize c (specPR c d pr)) ≤ 1 / 1000
    · rw [if_neg (not_lt.mpr hmv), if_pos hmv]
      rfl
    · rw [if_pos (not_le.mp hmv), if_neg hmv]
      exact iterLoop_eq_specLoop c hwf d fuel (specNormalize c (specPR c d pr))

/-- C1: for every well-formed corpus and damping factor in (0,1),
    iterate_pagerank follows the specified algorithm exactly: starting from
    rank 1/N for every page, each iteration recomputes every page's rank via
    (1-d)/N + d * sum over q linking to p of rank(q)/out-degree(q) using the
    reverse index (dangling pages never occur in a reverse set, so they
    contribute no term), renormalises the whole mapping by dividing by its
    sum, and the loop returns the normalised mapping exactly when the
    maximum absolute per-page change is at most 0.001 — for every fuel bound
    the code's loop coincides with the spec's loop, step by step. -/
theorem iterate_follows_spec (c : Corpus) (d : ℚ) (fuel : Nat) (hwf : WF c)
    (hd0 : 0 < d) (hd1 : d < 1) :
    iterate_pagerank c d fuel = iterate_rank_spec c d fuel := by
  unfold iterate_pagerank iterate_rank_spec initRanks
  exact iterLoop_eq_specLoop c hwf d fuel (fun _ => 1 / (c.length : ℚ))

/-- Witness for C1 at a concrete two-page corpus. -/
theorem iterate_follows_spec_witness :
    iterate_pagerank [("a", ["b"]), ("b", ["a"])] (17/20) 5 =
      iterate_rank_spec [("a", ["b"]), ("b", ["a"])] (17/20) 5 :=
  iterate_follows_spec [("a", ["b"]), ("b", ["a"])] (17/20) 5
    ⟨by decide, by decide, by decide, by decide⟩ (by norm_num) (by norm_num)

/-! ### Positivity invariants of the iterative solver -/

theorem newRankRaw_fst (c : Corpus) (d : ℚ) (rev : List (Page × List Page))
    (ranks : Dist) : (newRankRaw c d rev ranks).map Prod.fst = ranks.map Prod.fst :=
  map_fst_of_fst_eq _ _ (fun _ => rfl)

theorem normalize_fst (m : Dist) : (normalize m).map Prod.fst = m.map Prod.fst :=
  map_fst_of_fst_eq _ _ (fun _ => rfl)

theorem sumVals_nonneg (m : Dist) (h : ∀ e ∈ m, 0 ≤ e.2) : 0 ≤ sumVals m := by
  induction m with
  | nil => simp [sumVals]
  | cons e rest ih =>
    rw [sumVals_cons]
    have h1 := h e (List.mem_cons_self e rest)
    have h2 := ih (fun e' he' => h e' (List.mem_cons_of_mem _ he'))
    linarith

theorem sumVals_pos (m : Dist) (hne : m ≠ []) (h : ∀ e ∈ m, 0 < e.2) : 0 < sumVals m := by
  match m, hne with
  | e :: rest, _ =>
    rw [sumVals_cons]
    have h1 := h e (List.mem_cons_self e rest)
    have h2 : 0 ≤ sumVals rest :=
      sumVals_nonneg rest (fun e' he' => le_of_lt (h e' (List.mem_cons_of_mem _ he')))
    linarith

theorem le_sumVals (m : Dist) (e : Page × ℚ) (he : e ∈ m) (h : ∀ x ∈ m, 0 ≤ x.2) :
    e.2 ≤ sumVals m := by
  induction m with
  | nil => cases he
  | cons x rest ih =>
    rw [sumVals_cons]
    rcases List.mem_cons.mp he with rfl | hr
    · have : 0 ≤ sumVals rest :=
        sumVals_nonneg rest (fun e' he' => h e' (List.mem_cons_of_mem _ he'))
      linarith
    · have h1 := h x (List.mem_cons_self x rest)
      have h2 := ih hr (fun e' he' => h e' (List.mem_cons_of_mem _ he'))
      linarith

theorem sumVals_map_mul (m : Dist) (t : ℚ) :
    sumVals (m.map (fun e => (e.1, e.2 * t))) = sumVals m * t := by
  induction m with
  | nil => simp [sumVals]
  | cons e rest ih =>
    simp only [List.map_cons, sumVals_cons, ih]
    ring

theorem normalize_sum_one (m : Dist) (hS : 0 < sumVals m) : sumVals (normalize m) = 1 := by
  simp only [normalize]
  rw [sumVals_map_mul]
  field_simp

theorem normalize_mem_pos (m : Dist) (hS : 0 < sumVals m) (h : ∀ x ∈ m, 0 < x.2) :
    ∀ e ∈ normalize m, 0 < e.2 := by
  intro e he
  simp only [normalize] at he
  rcases List.mem_map.mp he with ⟨x, hx, rfl⟩
  exact mul_pos (h x hx) (by positivity)

theorem normalize_mem_le_one (m : Dist) (hS : 0 < sumVals m) (h : ∀ x ∈ m, 0 < x.2) :
    ∀ e ∈ normalize m, e.2 ≤ 1 := by
  intro e he
  simp only [normalize] at he
  rcases List.mem_map.mp he with ⟨x, hx, rfl⟩
  show x.2 * (1 / sumVals m) ≤ 1
  rw [mul_one_div, div_le_one hS]
  exact le_sumVals m x hx (fun y hy => le_of_lt (h y hy))

theorem newRankRaw_ge (c : Corpus) (d : ℚ) (rev : List (Page × List Page)) (ranks : Dist)
    (hd0 : 0 ≤ d) (hpos : ∀ e ∈ ranks, 0 ≤ e.2) :
    ∀ e ∈ newRankRaw c d rev ranks, (1 - d) / (c.length : ℚ) ≤ e.2 := by
  intro e he
  simp only [newRankRaw] at he
  rcases List.mem_map.mp he with ⟨x, _, rfl⟩
  show (1 - d) / (c.length : ℚ) ≤ pagerank_formula c x.1 d ranks rev
  simp only [pagerank_formula]
  have hind : 0 ≤ (dget rev x.1 []).foldl
      (fun acc link => acc + dget ranks link 0 / ((dget c link []).length : ℚ)) 0 := by
    rw [foldl_add_eq_sum
      (fun link => dget ranks link 0 / ((dget c link []).length : ℚ)) _ 0, zero_add]
    apply List.sum_nonneg
    intro v hv
    rcases List.mem_map.mp hv with ⟨link, _, rfl⟩
    exact div_nonneg (dget_nonneg ranks link hpos) (by positivity)
  nlinarith

theorem newRankRaw_mem_pos (c : Corpus) (d : ℚ) (rev : List (Page × List Page))
    (ranks : Dist) (hne : c ≠ []) (hd0 : 0 ≤ d) (hd1 : d < 1)
    (hpos : ∀ e ∈ ranks, 0 ≤ e.2) : ∀ e ∈ newRankRaw c d rev ranks, 0 < e.2 := by
  intro e he
  have hbase : (0 : ℚ) < (1 - d) / (c.length : ℚ) := by
    have hlen : 0 < (c.length : ℚ) := by
      have : 0 < c.length := List.length_pos.mpr hne
      exact_mod_cast this
    have : 0 < 1 - d := by linarith
    positivity
  exact lt_of_lt_of_le hbase (newRankRaw_ge c d rev ranks hd0 hpos e he)

theorem map_fst_ne_nil (m : Dist) (c : Corpus) (hc : c ≠ [])
    (h : m.map Prod.fst = keys c) : m ≠ [] := by
  intro hm
  subst hm
  have : keys c = [] := h.symm
  rw [keys] at this
  exact hc (List.map_eq_nil.mp this)

theorem stepRanks_props (c : Corpus) (d : ℚ) (rev : List (Page × List Page))
    (ranks : Dist) (hwf : WF c) (hd0 : 0 < d) (hd1 : d < 1)
    (hkeys : ranks.map Prod.fst = keys c) (hpos : ∀ e ∈ ranks, 0 < e.2) :
    (stepRanks c d rev ranks).map Prod.fst = keys c ∧
    (∀ e ∈ stepRanks c d rev ranks, 0 < e.2 ∧ e.2 ≤ 1) ∧
    sumVals (stepRanks c d rev ranks) = 1 := by
  have hposn : ∀ e ∈ newRankRaw c d rev ranks, 0 < e.2 :=
    newRankRaw_mem_pos c d rev ranks hwf.ne (le_of_lt hd0) hd1
      (fun e he => le_of_lt (hpos e he))
  have hkeysn : (newRankRaw c d rev ranks).map Prod.fst = keys c := by
    rw [newRankRaw_fst, hkeys]
  have hnen : newRankRaw c d rev ranks ≠ [] := map_fst_ne_nil _ c hwf.ne hkeysn
  have hS : 0 < sumVals (newRankRaw c d rev ranks) := sumVals_pos _ hnen hposn
  refine ⟨?_, ?_, ?_⟩
  · rw [stepRanks, normalize_fst, hkeysn]
  · intro e he
    exact ⟨normalize_mem_pos _ hS hposn e he, normalize_mem_le_one _ hS hposn e he⟩
  · exact normalize_sum_one _ hS

theorem iterLoop_result_props (c : Corpus) (d : ℚ) (rev : List (Page × List Page))
    (hwf : WF c) (hd0 : 0 < d) (hd1 : d < 1) :
    ∀ (fuel : Nat) (ranks r : Dist),
      ranks.map Prod.fst = keys c → (∀ e ∈ ranks, 0 < e.2) →
      iterLoop c d rev fuel ranks = some r →
      sumVals r = 1 ∧ (∀ e ∈ r, 0 < e.2 ∧ e.2 ≤ 1) ∧ r.map Prod.fst = keys c
  | 0, ranks, r, _, _, h => by cases h
  | fuel + 1, ranks, r, hkeys, hpos, h => by
    obtain ⟨hk, hp, hs⟩ := stepRanks_props c d rev ranks hwf hd0 hd1 hkeys hpos
    simp only [iterLoop] at h
    by_cases hc : maxDiff ranks (stepRanks c d rev ranks) > 1 / 1000
    · rw [if_pos hc] at h
      exact iterLoop_result_props c d rev hwf hd0 hd1 fuel _ r hk
        (fun e he => (hp e he).1) h
    · rw [if_neg hc] at h
      have := Option.some.inj h
      subst this
      exact ⟨hs, hp, hk⟩

/-- C5: whenever iterate_pagerank returns (the loop converges within the
    fuel bound), the returned values sum to 1.0 within 1e-6 (exactly 1 in
    exact arithmetic) and every value lies in the interval [0,1]. -/
theorem iterate_sum_one_values_unit (c : Corpus) (d : ℚ) (fuel : Nat) (r : Dist)
    (hwf : WF c) (hd0 : 0 < d) (hd1 : d < 1)
    (h : iterate_pagerank c d fuel = some r) :
    |sumVals r - 1| ≤ 1 / 1000000 ∧ ∀ e ∈ r, 0 ≤ e.2 ∧ e.2 ≤ 1 := by
  rw [iterate_pagerank] at h
  have hkeys : (initRanks c).map Prod.fst = keys c := map_fst_pairs _ _
  have hpos : ∀ e ∈ initRanks c, 0 < e.2 := by
    intro e he
    simp only [initRanks] at he
    rcases List.mem_map.mp he with ⟨p, _, rfl⟩
    show (0 : ℚ) < 1 / (c.length : ℚ)
    have : 0 < c.length := List.length_pos.mpr hwf.ne
    have : (0 : ℚ) < (c.length : ℚ) := by exact_mod_cast this
    positivity
  obtain ⟨hs, hp, _⟩ :=
    iterLoop_result_props c d (reverseIndex c) hwf hd0 hd1 fuel (initRanks c) r
      hkeys hpos h
  constructor
  · rw [hs]
    norm_num
  · exact fun e he => ⟨le_of_lt (hp e he).1, (hp e he).2⟩

/-- Witness for C5: the single-page corpus, whose loop converges with fuel 1
    to the mapping with value 1. -/
theorem iterate_sum_one_values_unit_witness :
    |sumVals [("a", (1 : ℚ))] - 1| ≤ 1 / 1000000 ∧
    ∀ e ∈ ([("a", (1 : ℚ))] : Dist), 0 ≤ e.2 ∧ e.2 ≤ 1 :=
  iterate_sum_one_values_unit [("a", [])] (17/20) 1 [("a", (1 : ℚ))]
    ⟨by decide, by decide, by decide, by decide⟩ (by norm_num) (by norm_num)
    (by norm_num [iterate_pagerank, iterLoop, stepRanks, newRankRaw, normalize, maxDiff,
      initRanks, reverseIndex, keys, addToSet, pagerank_formula, sumVals, dget])

theorem initRanks_props (c : Corpus) (hne : c ≠ []) :
    (initRanks c).map Prod.fst = keys c ∧ ∀ e ∈ initRanks c, 0 < e.2 := by
  refine ⟨map_fst_pairs _ _, ?_⟩
  intro e he
  simp only [initRanks] at he
  rcases List.mem_map.mp he with ⟨p, _, rfl⟩
  show (0 : ℚ) < 1 / (c.length : ℚ)
  have h1 : 0 < c.length := List.length_pos.mpr hne
  have h2 : (0 : ℚ) < (c.length : ℚ) := by exact_mod_cast h1
  positivity

theorem iter_state_props (c : Corpus) (d : ℚ) (hwf : WF c) (hd0 : 0 < d) (hd1 : d < 1) :
    ∀ k : Nat,
      ((stepRanks c d (reverseIndex c))^[k] (initRanks c)).map Prod.fst = keys c ∧
      ∀ e ∈ (stepRanks c d (reverseIndex c))^[k] (initRanks c), 0 < e.2
  | 0 => by
    rw [Function.iterate_zero_apply]
    exact initRanks_props c hwf.ne
  | k + 1 => by
    rw [Function.iterate_succ_apply']
    obtain ⟨hk, hp⟩ := iter_state_props c d hwf hd0 hd1 k
    obtain ⟨hk', hp', _⟩ :=
      stepRanks_props c d (reverseIndex c) _ hwf hd0 hd1 hk hp
    exact ⟨hk', fun e he => (hp' e he).1⟩

/-- C10: no division inside iterate_pagerank divides by zero: every page q
    appearing in a reverse-index entry has at least one out-neighbour
    (dangling pages never appear in any reverse set), so ranks[q]/len(corpus[q])
    is well-defined; and at every iteration every raw new rank is at least
    (1-d)/N > 0, so the normalisation divisor sum(new_rank.values()) is
    strictly positive. -/
theorem iterate_no_div_by_zero (c : Corpus) (d : ℚ) (hwf : WF c) (hd0 : 0 < d)
    (hd1 : d < 1) :
    (∀ p q, q ∈ dget (reverseIndex c) p [] → 0 < (dget c q []).length) ∧
    (∀ k : Nat,
      (∀ e ∈ newRankRaw c d (reverseIndex c)
          ((stepRanks c d (reverseIndex c))^[k] (initRanks c)),
        (1 - d) / (c.length : ℚ) ≤ e.2) ∧
      0 < sumVals (newRankRaw c d (reverseIndex c)
          ((stepRanks c d (reverseIndex c))^[k] (initRanks c)))) := by
  constructor
  · intro p q hq
    rw [reverseIndex_dget c hwf p] at hq
    rcases List.mem_map.mp hq with ⟨e, hef, rfl⟩
    obtain ⟨hec, hpe⟩ := List.mem_filter.mp hef
    have hpe' : p ∈ e.2 := of_decide_eq_true hpe
    have hdg : dget c e.1 [] = e.2 := dget_of_entry_nodup c e.1 e.2 [] hwf.nodupKeys hec
    rw [hdg]
    exact List.length_pos.mpr (List.ne_nil_of_mem hpe')
  · intro k
    obtain ⟨hk, hp⟩ := iter_state_props c d hwf hd0 hd1 k
    have hge := newRankRaw_ge c d (reverseIndex c) _ (le_of_lt hd0)
      (fun e he => le_of_lt (hp e he))
    refine ⟨hge, ?_⟩
    have hposn := newRankRaw_mem_pos c d (reverseIndex c) _ hwf.ne (le_of_lt hd0) hd1
      (fun e he => le_of_lt (hp e he))
    have hkeysn : (newRankRaw c d (reverseIndex c)
        ((stepRanks c d (reverseIndex c))^[k] (initRanks c))).map Prod.fst = keys c := by
      rw [newRankRaw_fst, hk]
    exact sumVals_pos _ (map_fst_ne_nil _ c hwf.ne hkeysn) hposn

/-- Witness for C10 at the two-page cycle corpus. -/
theorem iterate_no_div_by_zero_witness :
    (∀ p q, q ∈ dget (reverseIndex [("a", ["b"]), ("b", ["a"])]) p [] →
      0 < (dget [("a", ["b"]), ("b", ["a"])] q []).length) ∧
    (∀ k : Nat,
      (∀ e ∈ newRankRaw [("a", ["b"]), ("b", ["a"])] (1/2)
          (reverseIndex [("a", ["b"]), ("b", ["a"])])
          ((stepRanks [("a", ["b"]), ("b", ["a"])] (1/2)
            (reverseIndex [("a", ["b"]), ("b", ["a"])]))^[k]
              (initRanks [("a", ["b"]), ("b", ["a"])])),
        (1 - 1/2) / ((List.length [("a", ["b"]), ("b", ["a"])] : ℕ) : ℚ) ≤ e.2) ∧
      0 < sumVals (newRankRaw [("a", ["b"]), ("b", ["a"])] (1/2)
          (reverseIndex [("a", ["b"]), ("b", ["a"])])
          ((stepRanks [("a", ["b"]), ("b", ["a"])] (1/2)
            (reverseIndex [("a", ["b"]), ("b", ["a"])]))^[k]
              (initRanks [("a", ["b"]), ("b", ["a"])])))) :=
  iterate_no_div_by_zero [("a", ["b"]), ("b", ["a"])] (1/2)
    ⟨by decide, by decide, by decide, by decide⟩ (by norm_num) (by norm_num)

/-! ### Determinism of the iterative solver -/

theorem iterLoop_mono (c : Corpus) (d : ℚ) (rev : List (Page × List Page)) :
    ∀ (f1 : Nat) (ranks r : Dist), iterLoop c d rev f1 ranks = some r →
      ∀ f2, f1 ≤ f2 → iterLoop c d rev f2 ranks = some r
  | 0, ranks, r, h => by cases h
  | f1 + 1, ranks, r, h => by
    intro f2 hle
    cases f2 with
    | zero => exact absurd hle (Nat.not_succ_le_zero f1)
    | succ f2' =>
      simp only [iterLoop] at h ⊢
      by_cases hc : maxDiff ranks (stepRanks c d rev ranks) > 1 / 1000
      · rw [if_pos hc] at h ⊢
        exact iterLoop_mono c d rev f1 _ r h f2' (Nat.le_of_succ_le_succ hle)
      · rw [if_neg hc] at h ⊢
        exact h

/-- C7: iterate_pagerank is fully deterministic — any two calls (any two
    terminating runs of the fuelled loop) on the same corpus and damping
    factor return identical mappings; no randomness influences the result
    (the embedding takes no random oracle, unlike sample_pagerank). -/
theorem iterate_deterministic (c : Corpus) (d : ℚ) (f1 f2 : Nat) (r1 r2 : Dist)
    (h1 : iterate_pagerank c d f1 = some r1) (h2 : iterate_pagerank c d f2 = some r2) :
    r1 = r2 := by
  rw [iterate_pagerank] at h1 h2
  rcases le_total f1 f2 with h | h
  · have hmono := iterLoop_mono c d (reverseIndex c) f1 (initRanks c) r1 h1 f2 h
    rw [hmono] at h2
    exact Option.some.inj h2
  · have hmono := iterLoop_mono c d (reverseIndex c) f2 (initRanks c) r2 h2 f1 h
    rw [hmono] at h1
    exact (Option.some.inj h1).symm

/-- Witness for C7: two runs (fuel 1 and fuel 2) on the one-page corpus both
    return the mapping with value 1, hence equal results. -/
theorem iterate_deterministic_witness : ([("a", (1 : ℚ))] : Dist) = [("a", (1 : ℚ))] :=
  iterate_deterministic [("a", [])] (17/20) 1 2 [("a", (1 : ℚ))] [("a", (1 : ℚ))]
    (by norm_num [iterate_pagerank, iterLoop, stepRanks, newRankRaw, normalize, maxDiff,
      initRanks, reverseIndex, keys, addToSet, pagerank_formula, sumVals, dget])
    (by norm_num [iterate_pagerank, iterLoop, stepRanks, newRankRaw, normalize, maxDiff,
      initRanks, reverseIndex, keys, addToSet, pagerank_formula, sumVals, dget])

/-! ### The single dangling page corpus -/

theorem iterate_single_page (p : Page) (d : ℚ) (hd0 : 0 < d) (hd1 : d < 1) :
    ∀ fuel, iterate_pagerank [(p, [])] d (fuel + 1) = some [(p, 1)] := by
  intro fuel
  have h1d : (1 : ℚ) - d ≠ 0 := sub_ne_zero.mpr (by linarith)
  simp only [iterate_pagerank, iterLoop, stepRanks, newRankRaw, normalize, maxDiff,
    initRanks, reverseIndex, keys, pagerank_formula, sumVals, dget,
    List.map_cons, List.map_nil, List.foldl_cons, List.foldl_nil,
    List.length_cons, List.length_nil]
  norm_num [mul_inv_cancel₀ h1d]

theorem sampleLoop_single (p : Page) (d : ℚ) (rnd : Nat → Nat) :
    ∀ (k i : Nat), sampleLoop [(p, [])] d rnd k i p = List.replicate k p
  | 0, _ => rfl
  | k + 1, i => by
    have hpop : ((transition_model [(p, [])] p d).map Prod.fst) = [p] := by
      rw [transition_model_fst]
      rfl
    simp only [sampleLoop, hpop, List.length_cons, List.length_nil, Nat.zero_add,
      Nat.mod_one, List.getD_cons_zero]
    rw [List.replicate_succ]
    exact congrArg (List.cons p) (sampleLoop_single p d rnd k (i + 1))

theorem sample_single_page (p : Page) (d : ℚ) (n : Int) (rnd : Nat → Nat) (hn : 1 ≤ n) :
    sample_pagerank [(p, [])] d n rnd = .ok [(p, 1)] := by
  have hlen : ¬ (List.length [(p, ([] : List Page))] = 0) := by simp
  have hn0 : ¬ (n = 0) := by omega
  have hsamples : samplesOf [(p, [])] d n rnd = List.replicate ((n - 1).toNat + 1) p := by
    simp only [samplesOf, keys, List.map_cons, List.map_nil, List.length_cons,
      List.length_nil, Nat.zero_add, Nat.mod_one, List.getD_cons_zero]
    rw [List.replicate_succ]
    exact congrArg (List.cons p) (sampleLoop_single p d rnd _ 1)
  simp only [sample_pagerank, if_neg hlen, if_neg hn0, keys, List.map_cons, List.map_nil]
  rw [hsamples, List.count_replicate_self]
  have hcast : ((((n - 1).toNat + 1 : Nat)) : ℚ) = (n : ℚ) := by
    have h1 : (((n - 1).toNat : Int)) = n - 1 := Int.toNat_of_nonneg (by omega)
    have h2 : (((n - 1).toNat : ℚ)) = (n : ℚ) - 1 := by exact_mod_cast h1
    rw [Nat.cast_add, Nat.cast_one, h2]
    ring
  rw [hcast]
  have hnQ : ((n : ℚ)) ≠ 0 := by
    intro h
    exact hn0 (by exact_mod_cast h)
  rw [div_self hnQ]

/-- C8: for a corpus of exactly one page with no out-links, both methods
    give that page rank exactly 1.0: the iterative solver converges after
    the first iteration (fuel 1 suffices, and any fuel ≥ 1 gives the same),
    and the sampler returns {page: 1.0} for every n ≥ 1 and random stream. -/
theorem single_page_rank_one (p : Page) (d : ℚ) (n : Int) (rnd : Nat → Nat)
    (hd0 : 0 < d) (hd1 : d < 1) (hn : 1 ≤ n) :
    iterate_pagerank [(p, [])] d 1 = some [(p, 1)] ∧
    (∀ fuel, 1 ≤ fuel → iterate_pagerank [(p, [])] d fuel = some [(p, 1)]) ∧
    sample_pagerank [(p, [])] d n rnd = .ok [(p, 1)] := by
  refine ⟨iterate_single_page p d hd0 hd1 0, ?_, sample_single_page p d n rnd hn⟩
  intro fuel hfuel
  cases fuel with
  | zero => exact absurd hfuel (by omega)
  | succ f => exact iterate_single_page p d hd0 hd1 f

/-- Witness for C8 at page "a", d = 1/2, n = 3. -/
theorem single_page_rank_one_witness :
    iterate_pagerank [("a", [])] (1/2) 1 = some [("a", 1)] ∧
    (∀ fuel, 1 ≤ fuel → iterate_pagerank [("a", [])] (1/2) fuel = some [("a", 1)]) ∧
    sample_pagerank [("a", [])] (1/2) 3 (fun i => i) = .ok [("a", 1)] :=
  single_page_rank_one "a" (1/2) 3 (fun i => i) (by norm_num) (by norm_num) (by norm_num)

/-! ### Frame property: the corpus is only read, never written

    Both solvers are re-embedded in a state monad whose state is the corpus
    dictionary: every access the Python code makes to `corpus` becomes a
    `get`-based read (corpusItems, corpusAt, corpusSize, corpusKeysM), and no
    operation ever writes the state.  Running them proves the corpus after
    the call equals the corpus before, and that they compute the same values
    as the pure embeddings. -/

def corpusItems : StateM Corpus (List (Page × List Page)) := do
  pure (← get)

def corpusAt (p : Page) : StateM Corpus (List Page) := do
  pure (dget (← get) p [])

def corpusSize : StateM Corpus Nat := do
  pure (← get).length

def corpusKeysM : StateM Corpus (List Page) := do
  pure (keys (← get))

theorem run_bind_eq {α β : Type} (m : StateM Corpus α) (f : α → StateM Corpus β)
    (c : Corpus) : (m >>= f).run c = (f (m.run c).1).run (m.run c).2 := rfl

theorem corpusItems_run (c : Corpus) : corpusItems.run c = (c, c) := rfl

theorem corpusAt_run (p : Page) (c : Corpus) : (corpusAt p).run c = (dget c p [], c) := rfl

theorem corpusSize_run (c : Corpus) : corpusSize.run c = (c.length, c) := rfl

theorem corpusKeysM_run (c : Corpus) : corpusKeysM.run c = (keys c, c) := rfl

def transition_model_st (page : Page) (d : ℚ) : StateM Corpus Dist := do
  let items ← corpusItems
  let output := initOutput items
  let links ← corpusAt page
  let output :=
    if links.length ≠ 0 then
      links.foldl (fun o l => addTo o l (d / (links.length : ℚ))) output
    else
      output.map (fun e => (e.1, e.2 + d / (output.length : ℚ)))
  pure (output.map (fun e => (e.1, e.2 + (1 - d) / (output.length : ℚ))))

theorem transition_model_st_run (page : Page) (d : ℚ) (c : Corpus) :
    (transition_model_st page d).run c = (transition_model c page d, c) := rfl

def sampleLoop_st (d : ℚ) (rnd : Nat → Nat) : Nat → Nat → Page → StateM Corpus (List Page)
  | 0, _, _ => pure []
  | k + 1, i, page => do
    let dist ← transition_model_st page d
    let pop := dist.map Prod.fst
    let next := pop.getD (rnd i % pop.length) ""
    let rest ← sampleLoop_st d rnd k (i + 1) next
    pure (next :: rest)

theorem sampleLoop_st_run (d : ℚ) (rnd : Nat → Nat) :
    ∀ (k i : Nat) (page : Page) (c : Corpus),
      (sampleLoop_st d rnd k i page).run c = (sampleLoop c d rnd k i page, c)
  | 0, _, _, _ => rfl
  | k + 1, i, page, c => by
    simp only [sampleLoop_st, run_bind_eq, transition_model_st_run,
      sampleLoop_st_run d rnd k]
    rfl

def sample_pagerank_st (d : ℚ) (n : Int) (rnd : Nat → Nat) :
    StateM Corpus (Except String Dist) := do
  let sz ← corpusSize
  if sz = 0 then
    pure (.error "ValueError: empty range for randrange()")
  else
    let ks ← corpusKeysM
    let page := ks.getD (rnd 0 % sz) ""
    let rest ← sampleLoop_st d rnd (n - 1).toNat 1 page
    let samples := page :: rest
    if n = 0 then
      pure (.error "ZeroDivisionError: float division by zero")
    else
      let ks2 ← corpusKeysM
      pure (.ok (ks2.map (fun name => (name, ((samples.count name : ℚ)) / (n : ℚ)))))

theorem sample_pagerank_st_run (d : ℚ) (n : Int) (rnd : Nat → Nat) (c : Corpus) :
    (sample_pagerank_st d n rnd).run c = (sample_pagerank c d n rnd, c) := by
  simp only [sample_pagerank_st, sample_pagerank, samplesOf, run_bind_eq, corpusSize_run]
  by_cases h0 : c.length = 0
  · rw [if_pos h0, if_pos h0]
    rfl
  · rw [if_neg h0, if_neg h0]
    simp only [run_bind_eq, corpusKeysM_run, sampleLoop_st_run]
    by_cases hn : n = 0
    · rw [if_pos hn, if_pos hn]
      rfl
    · rw [if_neg hn, if_neg hn]
      simp only [run_bind_eq, corpusKeysM_run]
      rfl

def reverseIndex_st : StateM Corpus (List (Page × List Page)) := do
  let ks ← corpusKeysM
  let rev0 := ks.map (fun q => (q, ([] : List Page)))
  let items ← corpusItems
  pure (items.foldl (fun rev e => e.2.foldl (fun r i => addToSet r i e.1) rev) rev0)

theorem reverseIndex_st_run (c : Corpus) : reverseIndex_st.run c = (reverseIndex c, c) := rfl

def indRank_st (ranks : Dist) : List Page → ℚ → StateM Corpus ℚ
  | [], acc => pure acc
  | link :: rest, acc => do
    let outs ← corpusAt link
    indRank_st ranks rest (acc + dget ranks link 0 / ((outs.length : ℚ)))

theorem indRank_st_run (ranks : Dist) :
    ∀ (l : List Page) (acc : ℚ) (c : Corpus),
      (indRank_st ranks l acc).run c =
        (l.foldl (fun a link => a + dget ranks link 0 / ((dget c link []).length : ℚ)) acc,
          c)
  | [], _, _ => rfl
  | link :: rest, acc, c => by
    simp only [indRank_st, run_bind_eq, corpusAt_run, indRank_st_run ranks rest]
    rfl

def pagerank_formula_st (page : Page) (d : ℚ) (ranks : Dist)
    (rev : List (Page × List Page)) : StateM Corpus ℚ := do
  let sz ← corpusSize
  let rank := (1 - d) / (sz : ℚ)
  let ind ← indRank_st ranks (dget rev page []) 0
  pure (rank + d * ind)

theorem pagerank_formula_st_run (page : Page) (d : ℚ) (ranks : Dist)
    (rev : List (Page × List Page)) (c : Corpus) :
    (pagerank_formula_st page d ranks rev).run c =
      (pagerank_formula c page d ranks rev, c) := by
  simp only [pagerank_formula_st, pagerank_formula, run_bind_eq, corpusSize_run,
    indRank_st_run]
  rfl

def newRanks_st (d : ℚ) (ranks : Dist) (rev : List (Page × List Page)) :
    List (Page × ℚ) → StateM Corpus Dist
  | [] => pure []
  | e :: rest => do
    let v ← pagerank_formula_st e.1 d ranks rev
    let tail ← newRanks_st d ranks rev rest
    pure ((e.1, v) :: tail)

theorem newRanks_st_run (d : ℚ) (ranks : Dist) (rev : List (Page × List Page)) :
    ∀ (l : List (Page × ℚ)) (c : Corpus),
      (newRanks_st d ranks rev l).run c =
        (l.map (fun e => (e.1, pagerank_formula c e.1 d ranks rev)), c)
  | [], _ => rfl
  | e :: rest, c => by
    simp only [newRanks_st, run_bind_eq, pagerank_formula_st_run,
      newRanks_st_run d ranks rev rest]
    rfl

def iterLoop_st (d : ℚ) (rev : List (Page × List Page)) :
    Nat → Dist → StateM Corpus (Option Dist)
  | 0, _ => pure none
  | fuel + 1, ranks => do
    let nr0 ← newRanks_st d ranks rev ranks
    let nr := normalize nr0
    if maxDiff ranks nr > 1 / 1000 then iterLoop_st d rev fuel nr
    else pure (some nr)

theorem iterLoop_st_run (d : ℚ) (rev : List (Page × List Page)) :
    ∀ (fuel : Nat) (ranks : Dist) (c : Corpus),
      (iterLoop_st d rev fuel ranks).run c = (iterLoop c d rev fuel ranks, c)
  | 0, _, _ => rfl
  | fuel + 1, ranks, c => by
    simp only [iterLoop_st, iterLoop, stepRanks, newRankRaw, run_bind_eq,
      newRanks_st_run]
    by_cases hc : maxDiff ranks
        (normalize (ranks.map (fun e => (e.1, pagerank_formula c e.1 d ranks rev)))) >
          1 / 1000
    · rw [if_pos hc, if_pos hc]
      exact iterLoop_st_run d rev fuel _ c
    · rw [if_neg hc, if_neg hc]
      rfl

def iterate_pagerank_st (d : ℚ) (fuel : Nat) : StateM Corpus (Option Dist) := do
  let sz ← corpusSize
  let ks ← corpusKeysM
  let ranks := ks.map (fun q => (q, 1 / (sz : ℚ)))
  let rev ← reverseIndex_st
  iterLoop_st d rev fuel ranks

theorem iterate_pagerank_st_run (d : ℚ) (fuel : Nat) (c : Corpus) :
    (iterate_pagerank_st d fuel).run c = (iterate_pagerank c d fuel, c) := by
  have key : ∀ (L : List (Page × List Page) → Dist → StateM Corpus (Option Dist))
      (Lp : Corpus → List (Page × List Page) → Dist → Option Dist),
      (∀ rv ranks cc, (L rv ranks).run cc = (Lp cc rv ranks, cc)) →
      ((do
        let sz ← corpusSize
        let ks ← corpusKeysM
        let ranks := ks.map (fun q => (q, 1 / (sz : ℚ)))
        let rev ← reverseIndex_st
        L rev ranks : StateM Corpus (Option Dist))).run c =
        (Lp c (reverseIndex c) ((keys c).map (fun q => (q, 1 / (c.length : ℚ)))), c) := by
    intro L Lp hL
    simp only [run_bind_eq, corpusSize_run, corpusKeysM_run, reverseIndex_st_run, hL]
  have h1 := key (fun rv ranks => iterLoop_st d rv fuel ranks)
    (fun cc rv ranks => iterLoop cc d rv fuel ranks)
    (fun rv ranks cc => iterLoop_st_run d rv fuel ranks cc)
  have h2 : iterate_pagerank c d fuel =
      iterLoop c d (reverseIndex c) fuel
        ((keys c).map (fun q => (q, 1 / (c.length : ℚ)))) := rfl
  rw [h2]
  exact h1

/-- C9: neither sample_pagerank nor iterate_pagerank mutates its corpus
    argument: in the state-threaded embedding, where every corpus access is
    an explicit read of the state, the corpus after either call is exactly
    the corpus before (so its key set and every page's out-neighbour set are
    unchanged), and both calls compute the same result as the pure
    embeddings. -/
theorem corpus_not_mutated (c : Corpus) (d : ℚ) (n : Int) (rnd : Nat → Nat) (fuel : Nat) :
    ((sample_pagerank_st d n rnd).run c).2 = c ∧
    ((iterate_pagerank_st d fuel).run c).2 = c ∧
    ((sample_pagerank_st d n rnd).run c).1 = sample_pagerank c d n rnd ∧
    ((iterate_pagerank_st d fuel).run c).1 = iterate_pagerank c d fuel := by
  rw [sample_pagerank_st_run, iterate_pagerank_st_run]
  exact ⟨rfl, rfl, rfl, rfl⟩

end PageRank
